import Mathlib

/-!
# Verification of the culeidoscope auto-offload pipeline

A shallow embedding, in Lean 4, of the parts of the culeidoscope repository
(`toy.cpp`, `nvvmwrapper.cpp`, `launch.cpp`, `vector.cpp`) that the spec's
claims are about:

* the kernel launch configuration computed by `LaunchOnGpu` (launch.cpp),
  with the C `unsigned` (32-bit) arithmetic made explicit;
* the per-thread semantics of the kernel synthesized by
  `CreateNVVMWrapperKernel` (nvvmwrapper.cpp);
* the call-graph mark/sweep of `PruneUnrelatedFunctionsAndVariables`
  (nvvmwrapper.cpp), including its unconditional erasure of globals;
* the `vector_map` dispatcher (toy.cpp) operating on a clone of the live
  module;
* an interpreter for the expression language with exactly the run-time
  semantics of the IR emitted by the `Codegen` methods in toy.cpp
  (for/var/if/assignment/calls), over exact rational arithmetic (the doubles
  produced by the programs considered here are small integers, on which IEEE
  double arithmetic is exact);
* the definition-processing state machine of `FunctionAST::Codegen` /
  `PrototypeAST::Codegen`, which maintains the module and the mutable
  operator-precedence table.

Worklist loops that the C++ code runs until quiescence are written with an
explicit fuel parameter; the theorems either hold for every fuel or are
proved for a fuel shown to suffice.
-/

namespace CuKal

/-! ## 32-bit unsigned arithmetic (C `unsigned`)

`launch.cpp` computes the launch configuration in `unsigned` (32-bit)
arithmetic and the synthesized kernel computes its index in `i32`.
We model machine words as `Nat` reduced mod `2^32` at each operation. -/

def U32 : ℕ := 2 ^ 32

/-- 32-bit wrapping addition. -/
def add32 (a b : ℕ) : ℕ := (a + b) % U32

/-- 32-bit wrapping subtraction (two's complement). -/
def sub32 (a b : ℕ) : ℕ := (a + (U32 - b % U32)) % U32

/-- 32-bit wrapping multiplication. -/
def mul32 (a b : ℕ) : ℕ := (a * b) % U32

/-! ## Launch configuration (`LaunchOnGpu`, launch.cpp lines 122-123)

```c
const unsigned int nThreads = std::min<unsigned>(N, 128);
const unsigned int nBlocks  = (N + nThreads - 1) / nThreads;
```

The division is C `unsigned` division; when `nThreads = 0` (i.e. `N = 0`)
it is undefined behavior, modeled as `none`. -/

/-- `nThreads` as computed by `LaunchOnGpu`. -/
def nThreads (N : ℕ) : ℕ := min N 128

/-- The launch configuration `(nThreads, nBlocks)` computed by `LaunchOnGpu`,
`none` when the block-count division divides by zero (`N = 0`). The numerator
`N + nThreads - 1` is evaluated in 32-bit unsigned arithmetic exactly as in C:
left-to-right, wrapping. -/
def launchConfig (N : ℕ) : Option (ℕ × ℕ) :=
  if nThreads N = 0 then none
  else some (nThreads N, sub32 (add32 N (nThreads N)) 1 / nThreads N)

/-! ## The synthesized kernel (`CreateNVVMWrapperKernel`, nvvmwrapper.cpp)

The kernel body emitted at lines 200-271 of nvvmwrapper.cpp is, per thread:

```
idx  = ntid * ctaid        ; CreateMul (i32, wraps)
idx  = idx + tid           ; CreateAdd (i32, wraps)
cond = icmp ult idx, N     ; CreateICmpULT against ConstantInt N
br cond, then, else
then:
  t_i = load (gep input_i, idx)   ; one load per scalar parameter of F
  r   = call F(t_0, ..)
  store r, (gep output, idx)
  br else
else:
  ret void
```

`ntid` is the per-block thread count (block size `B`), `ctaid` the block
index `k`, `tid` the in-block thread index `t`. -/

/-- The global linear index computed by the synthesized kernel:
`ntid * ctaid + tid` in wrapping 32-bit arithmetic. -/
def kernelIdx (ntid ctaid tid : ℕ) : ℕ := add32 (mul32 ntid ctaid) tid

/-- Observable effect of one kernel thread: the memory indices it loads
(one entry per input pointer), the indices it stores, and the final
contents of the output buffer. -/
structure KernelEffect where
  loadIndices : List ℕ
  storeIndices : List ℕ
  output : ℕ → ℚ

/-- Per-thread semantics of the kernel synthesized by
`CreateNVVMWrapperKernel` for scalar function `F` with `inputs.length`
pointer parameters plus one output pointer, launched over buffers of
logical length `N`. In the true branch of the bounds check the thread
loads element `idx` of every input, calls `F`, and stores the result at
element `idx` of the output; in the false branch it returns with no
memory access. -/
def kernelThread (F : List ℚ → ℚ) (inputs : List (ℕ → ℚ)) (out : ℕ → ℚ)
    (N ntid ctaid tid : ℕ) : KernelEffect :=
  let idx := kernelIdx ntid ctaid tid
  if idx < N % U32 then
    { loadIndices := List.replicate inputs.length idx
      storeIndices := [idx]
      output := fun j => if j = idx then F (inputs.map (fun a => a idx)) else out j }
  else
    { loadIndices := [], storeIndices := [], output := out }

end CuKal

namespace CuKal

/-! ### Helper lemmas about the launch configuration -/

/-- For `1 ≤ N ≤ 2^32 - 128` the wrapping arithmetic in `LaunchOnGpu` does not
wrap and the configuration is `min N 128` threads and `(N + t - 1) / t` blocks. -/
theorem launchConfig_eq_of_le (N : ℕ) (h1 : 1 ≤ N) (h2 : N ≤ U32 - 128) :
    launchConfig N = some (min N 128, (N + min N 128 - 1) / min N 128) := by
  have hU : U32 = 4294967296 := by norm_num [U32]
  have ht1 : 1 ≤ min N 128 := le_min h1 (by norm_num)
  have h2' : N ≤ 4294967296 - 128 := hU ▸ h2
  have hnum : sub32 (add32 N (min N 128)) 1 = N + min N 128 - 1 := by
    unfold sub32 add32
    rw [hU]
    omega
  unfold launchConfig nThreads
  rw [if_neg (by omega), hnum]

/-- The block count `(N + t - 1) / t` is the exact ceiling of `N / t`:
it covers `N` and no smaller count does. -/
theorem ceilDiv_bounds (N t : ℕ) (ht : 1 ≤ t) (hN : 1 ≤ N) :
    N ≤ t * ((N + t - 1) / t) ∧ t * ((N + t - 1) / t - 1) < N := by
  obtain ⟨s, rfl⟩ : ∃ s, t = s + 1 := ⟨t - 1, by omega⟩
  have hnum : N + (s + 1) - 1 = N + s := by omega
  rw [hnum]
  have hdm := Nat.div_add_mod (N + s) (s + 1)
  have hr : (N + s) % (s + 1) < s + 1 := Nat.mod_lt _ (by omega)
  obtain ⟨p, hp⟩ : ∃ p, (N + s) / (s + 1) = p + 1 := by
    refine ⟨(N + s) / (s + 1) - 1, ?_⟩
    have : 1 ≤ (N + s) / (s + 1) := by
      rw [Nat.le_div_iff_mul_le (by omega)]
      omega
    omega
  rw [hp] at hdm ⊢
  simp only [Nat.add_sub_cancel]
  have hx : (s + 1) * (p + 1) = (s + 1) * p + (s + 1) := by ring
  rw [hx] at hdm ⊢
  generalize (s + 1) * p = X at hdm ⊢
  omega

/-! ### C1: index formula and bounds check -/

theorem kernelIdx_eq (B k t : ℕ) (h : B * k + t < U32) :
    kernelIdx B k t = B * k + t := by
  unfold kernelIdx add32 mul32
  rw [Nat.mod_eq_of_lt (lt_of_le_of_lt (Nat.le_add_right _ t) h)]
  exact Nat.mod_eq_of_lt h

theorem kernelThread_oob (F : List ℚ → ℚ) (inputs : List (ℕ → ℚ)) (out : ℕ → ℚ)
    (N ntid ctaid tid : ℕ) (hN : N < U32)
    (h : N ≤ kernelIdx ntid ctaid tid) :
    (kernelThread F inputs out N ntid ctaid tid).loadIndices = [] ∧
    (kernelThread F inputs out N ntid ctaid tid).storeIndices = [] ∧
    (kernelThread F inputs out N ntid ctaid tid).output = out := by
  unfold kernelThread
  rw [Nat.mod_eq_of_lt hN]
  rw [if_neg (by omega)]
  exact ⟨rfl, rfl, rfl⟩

/-- C1: in the synthesized kernel the global linear index is
`blockSize * blockIndex + threadIndex` (exactly, whenever the product does not
exceed the i32 range in which the kernel computes), the kernel branches on
`idx < N`, and a thread whose index is `≥ N` performs no load and no store:
its load list and store list are empty and the output buffer is untouched. -/
theorem C1_kernel_index_formula_and_oob_safety
    (B k t N : ℕ) (F : List ℚ → ℚ) (inputs : List (ℕ → ℚ)) (out : ℕ → ℚ)
    (hN : N < U32) :
    (B * k + t < U32 → kernelIdx B k t = B * k + t) ∧
    (N ≤ kernelIdx B k t →
      (kernelThread F inputs out N B k t).loadIndices = [] ∧
      (kernelThread F inputs out N B k t).storeIndices = [] ∧
      (kernelThread F inputs out N B k t).output = out) :=
  ⟨fun h => kernelIdx_eq B k t h,
   fun h => kernelThread_oob F inputs out N B k t hN h⟩

/-- Witness for C1 at block size 128, block index 1, thread index 5, N = 4:
the computed index is 133 and the thread performs no store. -/
theorem C1_kernel_index_formula_and_oob_safety_witness :
    kernelIdx 128 1 5 = 133 ∧
    (kernelThread (fun _ => 0) [] (fun _ => (0:ℚ)) 4 128 1 5).storeIndices = [] := by
  have h := C1_kernel_index_formula_and_oob_safety 128 1 5 4
    (fun _ => 0) [] (fun _ => (0:ℚ)) (by norm_num [U32])
  have hidx : kernelIdx 128 1 5 = 133 := by
    have := h.1 (by norm_num [U32])
    simpa using this
  exact ⟨hidx, (h.2 (by rw [hidx]; norm_num)).2.1⟩

/-! ### C5: launch configuration formula (corrected) -/

/-- C5 counterexample: at element count `N = 0` the code computes no launch
configuration at all — `nThreads = min(0,128) = 0` and
`(N + nThreads - 1) / nThreads` divides by zero — so the claimed formula does
not hold for every element count. -/
theorem C5_counterexample_N0 : launchConfig 0 = none := by
  simp [launchConfig, nThreads]

/-- C5 (amended): for every element count `N` with `1 ≤ N ≤ 2^32 - 128`
(so that the block-count division is defined and the 32-bit numerator
`N + nThreads - 1` does not wrap), the launch configuration is block size
`min(N,128)` and block count `ceil(N / blocksize)` — the least count whose
threads cover all `N` elements. -/
theorem C5_launch_configuration (N : ℕ) (h1 : 1 ≤ N) (h2 : N ≤ U32 - 128) :
    ∃ t b, launchConfig N = some (t, b) ∧ t = min N 128 ∧
      N ≤ t * b ∧ t * (b - 1) < N := by
  have ht1 : 1 ≤ min N 128 := le_min h1 (by norm_num)
  obtain ⟨hb1, hb2⟩ := ceilDiv_bounds N (min N 128) ht1 h1
  exact ⟨min N 128, (N + min N 128 - 1) / min N 128,
    launchConfig_eq_of_le N h1 h2, rfl, hb1, hb2⟩

/-- Witness for C5 at `N = 130`: block size 128, block count 2. -/
theorem C5_launch_configuration_witness :
    ∃ t b, launchConfig 130 = some (t, b) ∧ t = min 130 128 ∧
      130 ≤ t * b ∧ t * (b - 1) < 130 :=
  C5_launch_configuration 130 (by norm_num) (by norm_num [U32])

/-! ### C10: thread bounds and coverage (corrected) -/

/-- C10 counterexample: at `N = 2^32 - 1` the 32-bit numerator
`N + 128 - 1` wraps around, the computed block count is `126 / 128 = 0`,
and the provisioned threads (`128 * 0 = 0`) do not cover the `N` elements. -/
theorem C10_counterexample_wraparound :
    ¬ ∃ t b, launchConfig 4294967295 = some (t, b) ∧
      1 ≤ t ∧ t ≤ 128 ∧ 4294967295 ≤ t * b := by
  have h : launchConfig 4294967295 = some (128, 0) := by
    norm_num [launchConfig, nThreads, add32, sub32, U32]
  rintro ⟨t, b, heq, -, -, h3⟩
  rw [h] at heq
  obtain ⟨rfl, rfl⟩ : 128 = t ∧ 0 = b := by
    constructor <;> [exact congrArg Prod.fst (Option.some_injective _ heq);
                     exact congrArg Prod.snd (Option.some_injective _ heq)]
  omega

/-- C10 (amended): for every `1 ≤ N ≤ 2^32 - 128` the computed configuration
satisfies `1 ≤ nThreads ≤ 128` and `nThreads * nBlocks ≥ N` (every element
index is covered by a provisioned thread); and at `N = 0` no configuration is
computed because `nBlocks` divides by `nThreads = 0`. -/
theorem C10_thread_bounds_and_coverage :
    (∀ N, 1 ≤ N → N ≤ U32 - 128 →
      ∃ t b, launchConfig N = some (t, b) ∧ 1 ≤ t ∧ t ≤ 128 ∧ N ≤ t * b) ∧
    launchConfig 0 = none := by
  constructor
  · intro N h1 h2
    have ht1 : 1 ≤ min N 128 := le_min h1 (by norm_num)
    obtain ⟨hb1, -⟩ := ceilDiv_bounds N (min N 128) ht1 h1
    exact ⟨min N 128, (N + min N 128 - 1) / min N 128,
      launchConfig_eq_of_le N h1 h2, ht1, min_le_right _ _, hb1⟩
  · simp [launchConfig, nThreads]

/-- Witness for C10 at `N = 1`: one thread, one block, covering the element. -/
theorem C10_thread_bounds_and_coverage_witness :
    ∃ t b, launchConfig 1 = some (t, b) ∧ 1 ≤ t ∧ t ≤ 128 ∧ 1 ≤ t * b :=
  C10_thread_bounds_and_coverage.1 1 (by norm_num) (by norm_num [U32])

/-! ## IR modules and closure pruning (`PruneUnrelatedFunctionsAndVariables`,
nvvmwrapper.cpp lines 64-118)

An LLVM function is modeled by its name, arity, the names its direct call
instructions reference (in order), the global variables it references, and
whether it has a body. A module is its function list plus its global
variables. In this program a function's only uses are the direct call
instructions referencing it, and a global's only uses are the references
from functions. -/

structure Func where
  name : String
  arity : ℕ
  callees : List String
  globalRefs : List String
  hasBody : Bool
deriving DecidableEq

structure Module where
  funcs : List Func
  globals : List String
deriving DecidableEq

/-- `Module::getFunction`: first function with the given name. -/
def Module.getFunction (M : Module) (n : String) : Option Func :=
  M.funcs.find? (fun f => decide (f.name = n))

/-- `Function::use_empty` is false iff some call instruction in the current
function list references the name (including a recursive self-call). -/
def usedIn (funcs : List Func) (n : String) : Bool :=
  funcs.any (fun f => decide (n ∈ f.callees))

/-- `Function::eraseFromParent`: remove the function with that name. -/
def eraseFunc (funcs : List Func) (n : String) : List Func :=
  funcs.filter (fun f => decide (f.name ≠ n))

/-- The mark phase of `PruneUnrelatedFunctionsAndVariables` (lines 66-89):
a LIFO worklist (`push_back`/`pop_back` on a deque) starting from the entry
name; each popped name is inserted into `visited` and, when it names a module
function, the callees of its call instructions that are not yet visited are
pushed. The C++ loop runs until the worklist empties; `fuel` bounds the
number of iterations and `markBound` below is proven sufficient. -/
def markLoop (M : Module) : ℕ → List String → Finset String → Finset String
  | 0, _, vis => vis
  | _ + 1, [], vis => vis
  | fuel + 1, f :: ws, vis =>
    match M.getFunction f with
    | none => markLoop M fuel ws (insert f vis)
    | some F =>
        markLoop M fuel
          ((F.callees.filter (fun c => decide (c ∉ insert f vis))).reverse ++ ws)
          (insert f vis)

/-- All names appearing as call targets anywhere in the module. -/
def calleeNames (M : Module) : Finset String :=
  (M.funcs.flatMap Func.callees).toFinset

/-- Upper bound on the number of callees of any one function. -/
def maxCallees (M : Module) : ℕ :=
  (M.funcs.map (fun f => f.callees.length)).foldr max 0

/-- Sufficient fuel for `markLoop` (proven in `markLoop_spec`). -/
def markBound (M : Module) (ws : List String) (vis : Finset String) : ℕ :=
  ws.length + (maxCallees M + 2) * ((ws.toFinset ∪ calleeNames M) \ vis).card

/-- The visited set computed by the mark phase for an entry name. -/
def visitedSet (M : Module) (entry : String) : Finset String :=
  markLoop M (markBound M [entry] ∅) [entry] ∅

/-- The first sweep (lines 91-100): walk the module's functions in order;
visited functions are kept; an unvisited function that still has uses is
deferred onto the worklist; an unvisited function with no uses is erased
immediately. -/
def sweepPass1 (vis : Finset String) : List String → List Func → List Func × List String
  | [], funcs => (funcs, [])
  | n :: rest, funcs =>
    if n ∈ vis then sweepPass1 vis rest funcs
    else if usedIn funcs n then
      let p := sweepPass1 vis rest funcs
      (p.1, n :: p.2)
    else sweepPass1 vis rest (eraseFunc funcs n)

/-- The second sweep (lines 102-111): FIFO retry of deferred deletions;
a name that no longer resolves is dropped, a still-used function is pushed
back, an unused one is erased. The C++ loop runs until the worklist empties
(and hence forever when unreachable functions form a reference cycle);
`fuel` bounds the iterations. -/
def sweepLoop : ℕ → List String → List Func → List Func
  | 0, _, funcs => funcs
  | _ + 1, [], funcs => funcs
  | fuel + 1, n :: queue, funcs =>
    match funcs.find? (fun f => decide (f.name = n)) with
    | none => sweepLoop fuel queue funcs
    | some _ =>
        if usedIn funcs n then sweepLoop fuel (queue ++ [n]) funcs
        else sweepLoop fuel queue (eraseFunc funcs n)

/-- Fuel for the second sweep, sufficient whenever the C++ loop terminates. -/
def sweepFuel (wl : List String) (funcs : List Func) : ℕ :=
  (wl.length + 1) * (funcs.length + 1)

/-- `PruneUnrelatedFunctionsAndVariables` (lines 64-118): mark from the
entry, sweep unvisited functions (immediate erase or deferred worklist),
then erase Every global variable unconditionally (lines 113-117 iterate
`global_begin()..global_end()` calling `eraseFromParent` on each with no
reachability test). -/
def PruneUnrelatedFunctionsAndVariables (M : Module) (entry : String) : Module :=
  let vis := visitedSet M entry
  let p := sweepPass1 vis (M.funcs.map Func.name) M.funcs
  { funcs := sweepLoop (sweepFuel p.2 p.1) p.2 p.1
    globals := [] }

/-- Transitive reachability from `root` through direct call instructions. -/
inductive MReach (M : Module) (root : String) : String → Prop
  | refl : MReach M root root
  | step {f c : String} {F : Func} :
      MReach M root f → M.getFunction f = some F → c ∈ F.callees → MReach M root c

/-! ### Concrete modules used as test inputs -/

/-- A module with one entry function `f` that references global `gv`. -/
def Mglob : Module :=
  { funcs := [⟨"f", 1, [], ["gv"], true⟩], globals := ["gv"] }

/-- A module with entry `f` and an unreachable self-recursive function `u`
(whose own call instruction keeps its use list nonempty forever). -/
def Mcyc : Module :=
  { funcs := [⟨"f", 0, [], [], true⟩, ⟨"u", 0, ["u"], [], true⟩], globals := [] }

/-- The call graph `f → g → h` plus an unrelated function `u`. -/
def Mfghu : Module :=
  { funcs := [⟨"f", 1, ["g"], [], true⟩, ⟨"g", 1, ["h"], [], true⟩,
              ⟨"h", 1, [], [], true⟩, ⟨"u", 1, [], [], true⟩], globals := [] }

/-! ### C3: globals are erased unconditionally (code bug) -/

/-- C3: the claim says only unreachable globals are deleted and globals used
by retained functions remain; but lines 113-117 of nvvmwrapper.cpp erase
every global variable with no reachability test. On a module whose entry
function `f` references global `gv`, pruning for entry `f` retains `f`
(still referencing `gv`) yet deletes `gv`: the pruned module's global list
is empty. (Spec §9 itself flags this unconditional deletion as a likely
defect that deletes globals still used by retained functions.) -/
theorem C3_globals_erased_unconditionally :
    (PruneUnrelatedFunctionsAndVariables Mglob "f").globals = [] ∧
    "gv" ∈ Mglob.globals ∧
    ∃ g ∈ (PruneUnrelatedFunctionsAndVariables Mglob "f").funcs,
      g.name = "f" ∧ "gv" ∈ g.globalRefs := by decide

/-! ### C2 counterexample: an unreachable reference cycle is never deleted -/

/-- C2 counterexample: in `Mcyc` the function `u` is not reachable from the
entry `f`, yet pruning does not delete it: its self-call keeps `use_empty`
false, so the deferral worklist re-pushes it forever — for every number of
loop iterations `u` is still in the module (and hence it is in the module
returned by `PruneUnrelatedFunctionsAndVariables`). So pruning does not
delete every function outside the reachable set. -/
theorem C2_counterexample_dead_cycle :
    (¬ MReach Mcyc "f" "u") ∧
    (∀ fuel, ∃ g ∈ sweepLoop fuel ["u"] Mcyc.funcs, g.name = "u") ∧
    (∃ g ∈ (PruneUnrelatedFunctionsAndVariables Mcyc "f").funcs, g.name = "u") := by
  refine ⟨?_, ?_, by decide⟩
  · have hall : ∀ x, MReach Mcyc "f" x → x = "f" := by
      intro x hx
      induction hx with
      | refl => rfl
      | step hf hF hc ih =>
        subst ih
        have hF' : Mcyc.getFunction "f" = some ⟨"f", 0, [], [], true⟩ := by decide
        rw [hF'] at hF
        cases hF
        simp at hc
    intro h
    have := hall _ h
    simp at this
  · have hstep : ∀ fuel, sweepLoop (fuel + 1) ["u"] Mcyc.funcs =
        sweepLoop fuel ["u"] Mcyc.funcs := fun _ => rfl
    intro fuel
    induction fuel with
    | zero => exact ⟨⟨"u", 0, ["u"], [], true⟩, by decide⟩
    | succ n ih => rw [hstep]; exact ih

/-! ### Correctness of the mark phase

`WsOk` is the DFS stack invariant: an already-visited entry on the worklist
has all its callees either visited or sitting above it on the stack.
`GrayOk` says every visited function's callees are visited or still on the
worklist. Both hold initially, are preserved by `markLoop` steps, and at
termination (`ws = []`) `GrayOk` gives closure of the visited set under
direct calls. -/

def WsOk (M : Module) (ws : List String) (vis : Finset String) : Prop :=
  ∀ a w b, ws = a ++ w :: b → w ∈ vis →
    ∀ F, M.getFunction w = some F → ∀ c ∈ F.callees, c ∈ vis ∨ c ∈ a

def GrayOk (M : Module) (ws : List String) (vis : Finset String) : Prop :=
  ∀ w ∈ vis, ∀ F, M.getFunction w = some F → ∀ c ∈ F.callees, c ∈ vis ∨ c ∈ ws

theorem WsOk_cons_of_mem {M f tail vis} (h : WsOk M (f :: tail) vis) (hf : f ∈ vis) :
    WsOk M tail vis := by
  intro a w b hab hw F hF c hc
  rcases h (f :: a) w b (by rw [hab]; rfl) hw F hF c hc with hv | ha
  · exact Or.inl hv
  · rcases List.mem_cons.mp ha with rfl | ha'
    · exact Or.inl hf
    · exact Or.inr ha'

theorem WsOk_cons_none {M f tail vis} (h : WsOk M (f :: tail) vis)
    (hnone : M.getFunction f = none) : WsOk M tail (insert f vis) := by
  intro a w b hab hw F hF c hc
  rcases Finset.mem_insert.mp hw with rfl | hw'
  · rw [hnone] at hF; cases hF
  · rcases h (f :: a) w b (by rw [hab]; rfl) hw' F hF c hc with hv | ha
    · exact Or.inl (Finset.mem_insert_of_mem hv)
    · rcases List.mem_cons.mp ha with rfl | ha'
      · exact Or.inl (Finset.mem_insert_self _ _)
      · exact Or.inr ha'

theorem WsOk_cons_some {M f tail vis F} (h : WsOk M (f :: tail) vis)
    (hF : M.getFunction f = some F) :
    WsOk M ((F.callees.filter (fun c => decide (c ∉ insert f vis))).reverse ++ tail)
      (insert f vis) := by
  set L := (F.callees.filter (fun c => decide (c ∉ insert f vis))).reverse with hL
  have hLmem : ∀ x ∈ L, x ∉ insert f vis := by
    intro x hx
    have hx' := List.mem_reverse.mp (hL ▸ hx)
    simpa using (List.mem_filter.mp hx').2
  -- common case: the split point lies in the old tail
  have hmain : ∀ a' w b, tail = a' ++ w :: b → w ∈ insert f vis →
      ∀ Fw, M.getFunction w = some Fw → ∀ c ∈ Fw.callees,
        c ∈ insert f vis ∨ c ∈ L ++ a' := by
    intro a' w b htail hw Fw hFw c hc
    rcases Finset.mem_insert.mp hw with rfl | hw'
    · -- w = f : its callees are visited or among the freshly pushed ones
      rw [hF] at hFw
      cases hFw
      by_cases hcv : c ∈ insert w vis
      · exact Or.inl hcv
      · refine Or.inr (List.mem_append.mpr (Or.inl ?_))
        rw [hL]
        exact List.mem_reverse.mpr (List.mem_filter.mpr ⟨hc, by simpa using hcv⟩)
    · rcases h (f :: a') w b (by rw [htail]; rfl) hw' Fw hFw c hc with hv | ha
      · exact Or.inl (Finset.mem_insert_of_mem hv)
      · rcases List.mem_cons.mp ha with rfl | ha'
        · exact Or.inl (Finset.mem_insert_self _ _)
        · exact Or.inr (List.mem_append.mpr (Or.inr ha'))
  intro a w b hab hw Fw hFw c hc
  rcases List.append_eq_append_iff.mp hab.symm with ⟨a', ha', hb'⟩ | ⟨c', hc', hcb⟩
  · -- L = a ++ a', w :: b = a' ++ tail : split at or inside L
    cases a' with
    | nil =>
      -- boundary: a = L and tail = w :: b
      simp only [List.append_nil] at ha'
      simp only [List.nil_append] at hb'
      rcases hmain [] w b hb'.symm hw Fw hFw c hc with hv | hLa
      · exact Or.inl hv
      · have hcL : c ∈ L := by simpa using hLa
        exact Or.inr (ha' ▸ hcL)
    | cons x a'' =>
      -- w would be an element of L, hence unvisited: contradiction
      exfalso
      have hwx : w = x := (List.cons_eq_cons.mp hb').1
      have hwL : w ∈ L := by
        rw [ha', hwx]
        exact List.mem_append.mpr (Or.inr (List.mem_cons_self _ _))
      exact hLmem w hwL hw
  · -- a = L ++ c', tail = c' ++ w :: b : split inside the old tail
    rcases hmain c' w b hcb hw Fw hFw c hc with hv | hLa
    · exact Or.inl hv
    · rw [hc']
      exact Or.inr hLa

theorem GrayOk_cons_none {M f tail vis} (h : GrayOk M (f :: tail) vis)
    (hnone : M.getFunction f = none) : GrayOk M tail (insert f vis) := by
  intro w hw F hF c hc
  rcases Finset.mem_insert.mp hw with rfl | hw'
  · rw [hnone] at hF; cases hF
  · rcases h w hw' F hF c hc with hv | hws
    · exact Or.inl (Finset.mem_insert_of_mem hv)
    · rcases List.mem_cons.mp hws with rfl | h'
      · exact Or.inl (Finset.mem_insert_self _ _)
      · exact Or.inr h'

theorem GrayOk_cons_some {M f tail vis F} (h : GrayOk M (f :: tail) vis)
    (hF : M.getFunction f = some F) :
    GrayOk M ((F.callees.filter (fun c => decide (c ∉ insert f vis))).reverse ++ tail)
      (insert f vis) := by
  intro w hw Fw hFw c hc
  rcases Finset.mem_insert.mp hw with rfl | hw'
  · rw [hF] at hFw
    cases hFw
    by_cases hcv : c ∈ insert w vis
    · exact Or.inl hcv
    · refine Or.inr (List.mem_append.mpr (Or.inl ?_))
      exact List.mem_reverse.mpr (List.mem_filter.mpr ⟨hc, by simpa using hcv⟩)
  · rcases h w hw' Fw hFw c hc with hv | hws
    · exact Or.inl (Finset.mem_insert_of_mem hv)
    · rcases List.mem_cons.mp hws with rfl | h'
      · exact Or.inl (Finset.mem_insert_self _ _)
      · exact Or.inr (List.mem_append.mpr (Or.inr h'))

theorem le_foldr_max (l : List ℕ) : ∀ x ∈ l, x ≤ l.foldr max 0 := by
  induction l with
  | nil => intro x hx; cases hx
  | cons a l ih =>
    intro x hx
    rcases List.mem_cons.mp hx with rfl | hx'
    · exact le_max_left _ _
    · exact le_trans (ih x hx') (le_max_right _ _)

theorem callees_le_maxCallees {M : Module} {F : Func} (hF : F ∈ M.funcs) :
    F.callees.length ≤ maxCallees M :=
  le_foldr_max _ _ (List.mem_map.mpr ⟨F, hF, rfl⟩)

theorem callees_subset_calleeNames {M : Module} {F : Func} (hF : F ∈ M.funcs)
    {c : String} (hc : c ∈ F.callees) : c ∈ calleeNames M := by
  unfold calleeNames
  rw [List.mem_toFinset, List.mem_flatMap]
  exact ⟨F, hF, hc⟩

theorem getFunction_mem {M : Module} {n : String} {F : Func}
    (h : M.getFunction n = some F) : F ∈ M.funcs :=
  List.mem_of_find?_eq_some h

/-- Main specification of the mark phase: with the stack invariants and
enough fuel, the result contains the initial visited set and every worklist
entry, and is closed under direct calls. -/
theorem markLoop_spec (M : Module) : ∀ fuel ws vis, WsOk M ws vis → GrayOk M ws vis →
    markBound M ws vis ≤ fuel →
    vis ⊆ markLoop M fuel ws vis ∧
    (∀ w ∈ ws, w ∈ markLoop M fuel ws vis) ∧
    (∀ w ∈ markLoop M fuel ws vis, ∀ F, M.getFunction w = some F →
      ∀ c ∈ F.callees, c ∈ markLoop M fuel ws vis) := by
  intro fuel
  induction fuel with
  | zero =>
    intro ws vis _ hgray hbound
    have hws : ws = [] := by
      unfold markBound at hbound
      cases ws with
      | nil => rfl
      | cons a l => simp at hbound
    subst hws
    refine ⟨Finset.Subset.refl _, ?_, ?_⟩
    · intro w hw
      cases hw
    · intro w hw F hF c hc
      rcases hgray w hw F hF c hc with hv | hws
      · exact hv
      · cases hws
  | succ fuel ih =>
    intro ws vis hws hgray hbound
    cases ws with
    | nil =>
      refine ⟨Finset.Subset.refl _, ?_, ?_⟩
      · intro w hw
        cases hw
      · intro w hw F hF c hc
        rcases hgray w hw F hF c hc with hv | hmem
        · exact hv
        · cases hmem
    | cons f tail =>
      cases hgf : M.getFunction f with
      | none =>
        have heq : markLoop M (fuel + 1) (f :: tail) vis =
            markLoop M fuel tail (insert f vis) := by
          simp [markLoop, hgf]
        rw [heq]
        have hb' : markBound M tail (insert f vis) ≤ fuel := by
          have hsub : (tail.toFinset ∪ calleeNames M) \ insert f vis ⊆
              ((f :: tail).toFinset ∪ calleeNames M) \ vis := by
            intro x hx
            rw [Finset.mem_sdiff] at hx ⊢
            refine ⟨?_, fun hxv => hx.2 (Finset.mem_insert_of_mem hxv)⟩
            rcases Finset.mem_union.mp hx.1 with h1 | h2
            · exact Finset.mem_union_left _ (by
                rw [List.mem_toFinset] at h1 ⊢
                exact List.mem_cons_of_mem _ h1)
            · exact Finset.mem_union_right _ h2
          have hcard := Finset.card_le_card hsub
          unfold markBound at hbound ⊢
          simp only [List.length_cons] at hbound
          have := Nat.mul_le_mul_left (maxCallees M + 2) hcard
          omega
        obtain ⟨h1, h2, h3⟩ := ih tail (insert f vis)
          (WsOk_cons_none hws hgf) (GrayOk_cons_none hgray hgf) hb'
        refine ⟨fun x hx => h1 (Finset.mem_insert_of_mem hx), ?_, h3⟩
        intro w hw
        rcases List.mem_cons.mp hw with rfl | hw'
        · exact h1 (Finset.mem_insert_self _ _)
        · exact h2 w hw'
      | some F =>
        have heq : markLoop M (fuel + 1) (f :: tail) vis =
            markLoop M fuel
              ((F.callees.filter (fun c => decide (c ∉ insert f vis))).reverse ++ tail)
              (insert f vis) := by
          simp [markLoop, hgf]
        rw [heq]
        set L := (F.callees.filter (fun c => decide (c ∉ insert f vis))).reverse with hLdef
        have hb' : markBound M (L ++ tail) (insert f vis) ≤ fuel := by
          by_cases hf : f ∈ vis
          · -- stack invariant: all callees of f are visited, nothing is pushed
            have hLnil : L = [] := by
              rw [hLdef, List.reverse_eq_nil_iff, List.filter_eq_nil_iff]
              intro c hc
              have hcv := hws [] f tail rfl hf F hgf c hc
              simp only [List.not_mem_nil, or_false] at hcv
              simp [Finset.mem_insert_of_mem hcv]
            rw [hLnil, List.nil_append]
            have hins : insert f vis = vis := Finset.insert_eq_self.mpr hf
            rw [hins]
            have hsub : (tail.toFinset ∪ calleeNames M) \ vis ⊆
                ((f :: tail).toFinset ∪ calleeNames M) \ vis := by
              intro x hx
              rw [Finset.mem_sdiff] at hx ⊢
              refine ⟨?_, hx.2⟩
              rcases Finset.mem_union.mp hx.1 with h1 | h2
              · exact Finset.mem_union_left _ (by
                  rw [List.mem_toFinset] at h1 ⊢
                  exact List.mem_cons_of_mem _ h1)
              · exact Finset.mem_union_right _ h2
            have hcard := Finset.card_le_card hsub
            unfold markBound at hbound ⊢
            simp only [List.length_cons] at hbound
            have := Nat.mul_le_mul_left (maxCallees M + 2) hcard
            omega
          · -- f freshly visited: the unvisited-name count drops
            have hfS : f ∈ ((f :: tail).toFinset ∪ calleeNames M) \ vis := by
              rw [Finset.mem_sdiff]
              exact ⟨Finset.mem_union_left _ (by simp), hf⟩
            have hsub : ((L ++ tail).toFinset ∪ calleeNames M) \ insert f vis ⊆
                (((f :: tail).toFinset ∪ calleeNames M) \ vis).erase f := by
              intro x hx
              rw [Finset.mem_sdiff] at hx
              have hxf : x ≠ f := by
                intro h
                exact hx.2 (h ▸ Finset.mem_insert_self f vis)
              rw [Finset.mem_erase, Finset.mem_sdiff]
              refine ⟨hxf, ?_, fun hv => hx.2 (Finset.mem_insert_of_mem hv)⟩
              rcases Finset.mem_union.mp hx.1 with h1 | h2
              · rw [List.mem_toFinset, List.mem_append] at h1
                rcases h1 with hLm | ht
                · have hxc : x ∈ F.callees := by
                    have := List.mem_reverse.mp (hLdef ▸ hLm)
                    exact (List.mem_filter.mp this).1
                  exact Finset.mem_union_right _
                    (callees_subset_calleeNames (getFunction_mem hgf) hxc)
                · exact Finset.mem_union_left _ (by
                    rw [List.mem_toFinset]
                    exact List.mem_cons_of_mem _ ht)
              · exact Finset.mem_union_right _ h2
            have hcard : (((L ++ tail).toFinset ∪ calleeNames M) \ insert f vis).card + 1 ≤
                (((f :: tail).toFinset ∪ calleeNames M) \ vis).card := by
              have hc1 := Finset.card_le_card hsub
              rw [Finset.card_erase_of_mem hfS] at hc1
              have hc2 : 1 ≤ (((f :: tail).toFinset ∪ calleeNames M) \ vis).card :=
                Finset.card_pos.mpr ⟨f, hfS⟩
              omega
            have hLlen : L.length ≤ maxCallees M := by
              rw [hLdef, List.length_reverse]
              exact le_trans (List.length_filter_le _ _)
                (callees_le_maxCallees (getFunction_mem hgf))
            unfold markBound at hbound ⊢
            simp only [List.length_cons, List.length_append] at hbound ⊢
            set K := maxCallees M with hK
            set c1 := (((L ++ tail).toFinset ∪ calleeNames M) \ insert f vis).card
            set c2 := (((f :: tail).toFinset ∪ calleeNames M) \ vis).card
            have hmul : (K + 2) * c1 + (K + 2) ≤ (K + 2) * c2 := by
              have hle := Nat.mul_le_mul_left (K + 2) hcard
              calc (K + 2) * c1 + (K + 2) = (K + 2) * (c1 + 1) := by ring
                _ ≤ (K + 2) * c2 := hle
            omega
        obtain ⟨h1, h2, h3⟩ := ih (L ++ tail) (insert f vis)
          (WsOk_cons_some hws hgf) (GrayOk_cons_some hgray hgf) hb'
        refine ⟨fun x hx => h1 (Finset.mem_insert_of_mem hx), ?_, h3⟩
        intro w hw
        rcases List.mem_cons.mp hw with rfl | hw'
        · exact h1 (Finset.mem_insert_self _ _)
        · exact h2 w (List.mem_append.mpr (Or.inr hw'))

theorem MReach_trans {M root mid x} (h1 : MReach M root mid) (h2 : MReach M mid x) :
    MReach M root x := by
  induction h2 with
  | refl => exact h1
  | step _ hF hc ih => exact MReach.step ih hF hc

/-- Everything the mark phase visits is reachable from some worklist entry. -/
theorem markLoop_sound (M : Module) : ∀ fuel ws vis x, x ∈ markLoop M fuel ws vis →
    x ∈ vis ∨ ∃ w ∈ ws, MReach M w x := by
  intro fuel
  induction fuel with
  | zero => intro ws vis x hx; exact Or.inl hx
  | succ fuel ih =>
    intro ws vis x hx
    cases ws with
    | nil => exact Or.inl hx
    | cons f tail =>
      cases hgf : M.getFunction f with
      | none =>
        rw [show markLoop M (fuel + 1) (f :: tail) vis =
            markLoop M fuel tail (insert f vis) by simp [markLoop, hgf]] at hx
        rcases ih tail (insert f vis) x hx with hv | ⟨w, hwmem, hwr⟩
        · rcases Finset.mem_insert.mp hv with rfl | hv'
          · exact Or.inr ⟨x, List.mem_cons_self _ _, MReach.refl⟩
          · exact Or.inl hv'
        · exact Or.inr ⟨w, List.mem_cons_of_mem _ hwmem, hwr⟩
      | some F =>
        rw [show markLoop M (fuel + 1) (f :: tail) vis =
            markLoop M fuel
              ((F.callees.filter (fun c => decide (c ∉ insert f vis))).reverse ++ tail)
              (insert f vis) by simp [markLoop, hgf]] at hx
        rcases ih _ (insert f vis) x hx with hv | ⟨w, hwmem, hwr⟩
        · rcases Finset.mem_insert.mp hv with rfl | hv'
          · exact Or.inr ⟨x, List.mem_cons_self _ _, MReach.refl⟩
          · exact Or.inl hv'
        · rw [List.mem_append] at hwmem
          rcases hwmem with hL | ht
          · have hwc : w ∈ F.callees :=
              (List.mem_filter.mp (List.mem_reverse.mp hL)).1
            exact Or.inr ⟨f, List.mem_cons_self _ _,
              MReach_trans (MReach.step MReach.refl hgf hwc) hwr⟩
          · exact Or.inr ⟨w, List.mem_cons_of_mem _ ht, hwr⟩

/-- The visited set of the mark phase is exactly the set of names reachable
from the entry through direct call instructions, and it is closed under
direct calls. -/
theorem visitedSet_spec (M : Module) (entry : String) :
    (∀ x, x ∈ visitedSet M entry ↔ MReach M entry x) ∧
    (∀ w ∈ visitedSet M entry, ∀ F, M.getFunction w = some F →
      ∀ c ∈ F.callees, c ∈ visitedSet M entry) := by
  have hws : WsOk M [entry] ∅ := by
    intro a w b _ hw
    exact absurd hw (Finset.not_mem_empty w)
  have hgray : GrayOk M [entry] ∅ := by
    intro w hw
    exact absurd hw (Finset.not_mem_empty w)
  obtain ⟨-, h2, h3⟩ := markLoop_spec M (markBound M [entry] ∅) [entry] ∅ hws hgray le_rfl
  refine ⟨fun x => ⟨?_, ?_⟩, h3⟩
  · intro hx
    rcases markLoop_sound M _ [entry] ∅ x hx with hv | ⟨w, hwmem, hwr⟩
    · exact absurd hv (Finset.not_mem_empty x)
    · rcases List.mem_cons.mp hwmem with rfl | h
      · exact hwr
      · cases h
  · intro hx
    induction hx with
    | refl => exact h2 entry (List.mem_cons_self _ _)
    | step _ hF hc ih => exact h3 _ ih _ hF _ hc

/-! ### Correctness of the sweep phases -/

/-- Number of functions in the list that the mark phase did not visit. -/
def deadCount (vis : Finset String) (fs : List Func) : ℕ :=
  (fs.filter (fun g => decide (g.name ∉ vis))).length

/-- A call edge between two unvisited functions. -/
def deadEdge (fs : List Func) (vis : Finset String) (a b : String) : Prop :=
  a ∉ vis ∧ b ∉ vis ∧ ∃ f ∈ fs, f.name = a ∧ b ∈ f.callees

theorem eraseFunc_sublist (fs : List Func) (n : String) : (eraseFunc fs n).Sublist fs :=
  List.filter_sublist fs

theorem mem_eraseFunc {fs : List Func} {n : String} {g : Func} :
    g ∈ eraseFunc fs n ↔ g ∈ fs ∧ g.name ≠ n := by
  unfold eraseFunc
  rw [List.mem_filter]
  simp

theorem deadCount_eraseFunc_le (vis : Finset String) (fs : List Func) (n : String) :
    deadCount vis (eraseFunc fs n) ≤ deadCount vis fs :=
  List.Sublist.length_le (List.Sublist.filter _ (eraseFunc_sublist fs n))

theorem deadCount_eraseFunc_lt (vis : Finset String) {fs : List Func} {n : String}
    {f₀ : Func} (hf : f₀ ∈ fs) (hname : f₀.name = n) (hdead : n ∉ vis) :
    deadCount vis (eraseFunc fs n) + 1 ≤ deadCount vis fs := by
  induction fs with
  | nil => cases hf
  | cons a l ih =>
    by_cases han : a.name = n
    · have hstep : eraseFunc (a :: l) n = eraseFunc l n := by
        unfold eraseFunc
        rw [List.filter_cons]
        simp [han]
      have hadead : deadCount vis (a :: l) = deadCount vis l + 1 := by
        unfold deadCount
        rw [List.filter_cons]
        have : a.name ∉ vis := han ▸ hdead
        simp [this]
      rw [hstep, hadead]
      have := deadCount_eraseFunc_le vis l n
      omega
    · have hstep : eraseFunc (a :: l) n = a :: eraseFunc l n := by
        unfold eraseFunc
        rw [List.filter_cons]
        simp [han]
      have hfl : f₀ ∈ l := by
        rcases List.mem_cons.mp hf with rfl | h
        · exact absurd hname han
        · exact h
      have hIH := ih hfl
      unfold deadCount at hIH ⊢
      rw [hstep, List.filter_cons, List.filter_cons]
      by_cases hav : a.name ∉ vis
      · have hd : decide (a.name ∉ vis) = true := by simpa using hav
        simp [hd]
        simp only [decide_not] at hIH
        omega
      · have hd : decide (a.name ∉ vis) = false := by simpa using hav
        simp [hd]
        simp only [decide_not] at hIH
        omega

theorem deadCount_eq_zero {vis : Finset String} {fs : List Func}
    (h : deadCount vis fs = 0) : ∀ g ∈ fs, g.name ∈ vis := by
  intro g hg
  unfold deadCount at h
  rw [List.length_eq_zero] at h
  by_contra hdead
  have : g ∈ fs.filter (fun g => decide (g.name ∉ vis)) :=
    List.mem_filter.mpr ⟨hg, by simpa using hdead⟩
  rw [h] at this
  cases this

theorem deadCount_pos {vis : Finset String} {fs : List Func}
    (h : 0 < deadCount vis fs) : ∃ g ∈ fs, g.name ∉ vis := by
  unfold deadCount at h
  rw [List.length_pos] at h
  obtain ⟨g, hg⟩ := List.exists_mem_of_ne_nil _ h
  obtain ⟨hmem, hp⟩ := List.mem_filter.mp hg
  exact ⟨g, hmem, by simpa using hp⟩

theorem deadCount_le_length (vis : Finset String) (fs : List Func) :
    deadCount vis fs ≤ fs.length :=
  List.length_filter_le _ _

/-- The sweep loop only ever removes functions: its result is a sublist. -/
theorem sweepLoop_subset : ∀ fuel q fs, ∀ g ∈ sweepLoop fuel q fs, g ∈ fs := by
  intro fuel
  induction fuel with
  | zero => intro q fs g hg; exact hg
  | succ fuel ih =>
    intro q fs g hg
    cases q with
    | nil => exact hg
    | cons n tail =>
      cases hfind : fs.find? (fun f => decide (f.name = n)) with
      | none =>
        rw [show sweepLoop (fuel + 1) (n :: tail) fs = sweepLoop fuel tail fs by
          simp [sweepLoop, hfind]] at hg
        exact ih tail fs g hg
      | some F0 =>
        by_cases hused : usedIn fs n
        · rw [show sweepLoop (fuel + 1) (n :: tail) fs = sweepLoop fuel (tail ++ [n]) fs by
            simp [sweepLoop, hfind, hused]] at hg
          exact ih _ fs g hg
        · rw [show sweepLoop (fuel + 1) (n :: tail) fs =
              sweepLoop fuel tail (eraseFunc fs n) by
            simp [sweepLoop, hfind, hused]] at hg
          exact (mem_eraseFunc.mp (ih tail _ g hg)).1

/-- The sweep loop never removes a function whose name was visited, as long
as the queue holds only unvisited names. -/
theorem sweepLoop_keeps_visited (vis : Finset String) :
    ∀ fuel q fs, (∀ n ∈ q, n ∉ vis) → ∀ g ∈ fs, g.name ∈ vis →
      g ∈ sweepLoop fuel q fs := by
  intro fuel
  induction fuel with
  | zero => intro q fs _ g hg _; exact hg
  | succ fuel ih =>
    intro q fs hq g hg hgv
    cases q with
    | nil => exact hg
    | cons n tail =>
      cases hfind : fs.find? (fun f => decide (f.name = n)) with
      | none =>
        rw [show sweepLoop (fuel + 1) (n :: tail) fs = sweepLoop fuel tail fs by
          simp [sweepLoop, hfind]]
        exact ih tail fs (fun m hm => hq m (List.mem_cons_of_mem _ hm)) g hg hgv
      | some F0 =>
        by_cases hused : usedIn fs n
        · rw [show sweepLoop (fuel + 1) (n :: tail) fs = sweepLoop fuel (tail ++ [n]) fs by
            simp [sweepLoop, hfind, hused]]
          refine ih _ fs ?_ g hg hgv
          intro m hm
          rcases List.mem_append.mp hm with h1 | h2
          · exact hq m (List.mem_cons_of_mem _ h1)
          · rcases List.mem_cons.mp h2 with rfl | h3
            · exact hq m (List.mem_cons_self _ _)
            · cases h3
        · rw [show sweepLoop (fuel + 1) (n :: tail) fs =
              sweepLoop fuel tail (eraseFunc fs n) by
            simp [sweepLoop, hfind, hused]]
          refine ih tail _ (fun m hm => hq m (List.mem_cons_of_mem _ hm)) g ?_ hgv
          refine mem_eraseFunc.mpr ⟨hg, ?_⟩
          intro heq
          exact hq n (List.mem_cons_self _ _) (heq ▸ hgv)

/-- In an acyclic dead-call graph that is closed under callers, some
unvisited function has no user at all (its `use_empty` is true). -/
theorem exists_erasable (fs : List Func) (vis : Finset String)
    (hclosed : ∀ g ∈ fs, g.name ∈ vis → ∀ c ∈ g.callees, c ∈ vis)
    (hacyc : ∀ n, ¬ Relation.TransGen (deadEdge fs vis) n n)
    (hne : ∃ g ∈ fs, g.name ∉ vis) :
    ∃ g ∈ fs, g.name ∉ vis ∧ usedIn fs g.name = false := by
  classical
  -- any user of an unvisited function is itself unvisited
  have huser : ∀ g ∈ fs, g.name ∉ vis → usedIn fs g.name = true →
      ∃ m, deadEdge fs vis m g.name := by
    intro g hg hgd hused
    unfold usedIn at hused
    rw [List.any_eq_true] at hused
    obtain ⟨f, hf, hfc⟩ := hused
    rw [decide_eq_true_eq] at hfc
    by_cases hfv : f.name ∈ vis
    · exact absurd (hclosed f hf hfv _ hfc) hgd
    · exact ⟨f.name, hfv, hgd, f, hf, rfl, hfc⟩
  -- strong induction over a caller-closed finite set of dead names
  have main : ∀ (k : ℕ) (S : Finset String), S.card ≤ k →
      (∀ n ∈ S, ∃ g ∈ fs, g.name = n ∧ n ∉ vis) →
      (∀ n ∈ S, ∀ m, deadEdge fs vis m n → m ∈ S) →
      S.Nonempty →
      ∃ g ∈ fs, g.name ∉ vis ∧ usedIn fs g.name = false := by
    intro k
    induction k with
    | zero =>
      intro S hcard _ _ hSne
      rw [Nat.le_zero, Finset.card_eq_zero] at hcard
      subst hcard
      exact absurd hSne (by simp)
    | succ k ih =>
      intro S hcard hSd hScl hSne
      obtain ⟨n, hn⟩ := hSne
      obtain ⟨g, hg, hgname, hgd⟩ := hSd n hn
      by_cases hused : usedIn fs g.name = true
      · -- g has a (necessarily dead) caller; recurse on its strict ancestors
        obtain ⟨m, hm⟩ := huser g hg (hgname ▸ hgd) hused
        have hmS : m ∈ S := hScl n hn m (hgname ▸ hm)
        set S' := S.filter (fun x => Relation.TransGen (deadEdge fs vis) x n) with hS'
        have hmS' : m ∈ S' := by
          rw [hS', Finset.mem_filter]
          exact ⟨hmS, Relation.TransGen.single (hgname ▸ hm)⟩
        have hnS' : n ∉ S' := by
          rw [hS', Finset.mem_filter]
          rintro ⟨-, hcyc⟩
          exact hacyc n hcyc
        have hssub : S' ⊂ S := by
          rw [Finset.ssubset_iff_of_subset (Finset.filter_subset _ _)]
          exact ⟨n, hn, hnS'⟩
        have hcard' : S'.card ≤ k := by
          have := Finset.card_lt_card hssub
          omega
        refine ih S' hcard' ?_ ?_ ⟨m, hmS'⟩
        · intro x hx
          exact hSd x (Finset.mem_of_mem_filter _ hx)
        · intro x hx y hy
          rw [hS', Finset.mem_filter] at hx ⊢
          exact ⟨hScl x hx.1 y hy, Relation.TransGen.head hy hx.2⟩
      · exact ⟨g, hg, hgname ▸ hgd, by simpa using hused⟩
  obtain ⟨g0, hg0, hg0d⟩ := hne
  refine main ((fs.filter (fun g => decide (g.name ∉ vis))).map Func.name).toFinset.card
    ((fs.filter (fun g => decide (g.name ∉ vis))).map Func.name).toFinset le_rfl ?_ ?_ ?_
  · intro n hn
    rw [List.mem_toFinset, List.mem_map] at hn
    obtain ⟨g, hg, rfl⟩ := hn
    obtain ⟨hgm, hgp⟩ := List.mem_filter.mp hg
    exact ⟨g, hgm, rfl, by simpa using hgp⟩
  · intro n _ m hm
    obtain ⟨hmd, -, f, hf, rfl, -⟩ := hm
    rw [List.mem_toFinset, List.mem_map]
    exact ⟨f, List.mem_filter.mpr ⟨hf, by simpa using hmd⟩, rfl⟩
  · refine ⟨g0.name, ?_⟩
    rw [List.mem_toFinset, List.mem_map]
    exact ⟨g0, List.mem_filter.mpr ⟨hg0, by simpa using hg0d⟩, rfl⟩

/-- Completeness of the second sweep: with the invariants (queue holds only
unvisited names, every still-present unvisited function is queued, visited
functions call only visited ones, no cycle among unvisited functions) and
enough fuel, every function surviving the loop is visited. -/
theorem sweepLoop_complete (vis : Finset String) :
    ∀ fuel q fs,
      (∀ n ∈ q, n ∉ vis) →
      (∀ g ∈ fs, g.name ∉ vis → g.name ∈ q) →
      (∀ g ∈ fs, g.name ∈ vis → ∀ c ∈ g.callees, c ∈ vis) →
      (∀ n, ¬ Relation.TransGen (deadEdge fs vis) n n) →
      (0 < deadCount vis fs →
        ∃ m pre post, q = pre ++ m :: post ∧
          (∃ g ∈ fs, g.name = m) ∧ usedIn fs m = false ∧
          deadCount vis fs * (q.length + 1) + pre.length + 1 ≤ fuel) →
      ∀ g ∈ sweepLoop fuel q fs, g.name ∈ vis := by
  intro fuel
  induction fuel with
  | zero =>
    intro q fs _ _ _ _ hwit g hg
    by_cases hd : deadCount vis fs = 0
    · exact deadCount_eq_zero hd g (sweepLoop_subset 0 q fs g hg)
    · obtain ⟨-, -, -, -, -, -, hb⟩ := hwit (Nat.pos_of_ne_zero hd)
      omega
  | succ fuel ih =>
    intro q fs hqd hq hclosed hacyc hwit g hg
    by_cases hd : deadCount vis fs = 0
    · exact deadCount_eq_zero hd g (sweepLoop_subset (fuel + 1) q fs g hg)
    · have hdpos := Nat.pos_of_ne_zero hd
      obtain ⟨m, pre, post, hsplit, hpres, hunused, hb⟩ := hwit hdpos
      cases q with
      | nil =>
        exfalso
        cases pre <;> simp at hsplit
      | cons n tail =>
        cases hfind : fs.find? (fun f => decide (f.name = n)) with
        | none =>
          -- n does not resolve: drop it
          rw [show sweepLoop (fuel + 1) (n :: tail) fs = sweepLoop fuel tail fs by
            simp [sweepLoop, hfind]] at hg
          have hnp : ∀ g' ∈ fs, g'.name ≠ n := by
            intro g' hg' heq
            have := List.find?_eq_none.mp hfind g' hg'
            simp [heq] at this
          have hprecons : ∃ x pre', pre = x :: pre' := by
            cases pre with
            | nil =>
              exfalso
              obtain ⟨gm, hgm, hgmn⟩ := hpres
              simp only [List.nil_append, List.cons.injEq] at hsplit
              exact hnp gm hgm (hgmn.trans hsplit.1.symm)
            | cons x pre' => exact ⟨x, pre', rfl⟩
          obtain ⟨x, pre', rfl⟩ := hprecons
          simp only [List.cons_append, List.cons.injEq] at hsplit
          refine ih tail fs (fun a ha => hqd a (List.mem_cons_of_mem _ ha)) ?_
            hclosed hacyc ?_ g hg
          · intro g' hg' hg'd
            rcases List.mem_cons.mp (hq g' hg' hg'd) with heq | h
            · exact absurd heq (hnp g' hg')
            · exact h
          · intro _
            refine ⟨m, pre', post, hsplit.2, hpres, hunused, ?_⟩
            have hlen : (n :: tail).length = tail.length + 1 := rfl
            have hmul := Nat.mul_le_mul_left (deadCount vis fs)
              (show tail.length + 1 ≤ tail.length + 1 + 1 by omega)
            simp only [List.length_cons] at hb
            omega
        | some F0 =>
          by_cases hused : usedIn fs n
          · -- still used: requeue at the back
            rw [show sweepLoop (fuel + 1) (n :: tail) fs =
                sweepLoop fuel (tail ++ [n]) fs by simp [sweepLoop, hfind, hused]] at hg
            have hprecons : ∃ x pre', pre = x :: pre' := by
              cases pre with
              | nil =>
                exfalso
                simp only [List.nil_append, List.cons.injEq] at hsplit
                rw [← hsplit.1] at hunused
                rw [hunused] at hused
                cases hused
              | cons x pre' => exact ⟨x, pre', rfl⟩
            obtain ⟨x, pre', rfl⟩ := hprecons
            simp only [List.cons_append, List.cons.injEq] at hsplit
            refine ih (tail ++ [n]) fs ?_ ?_ hclosed hacyc ?_ g hg
            · intro a ha
              rcases List.mem_append.mp ha with h1 | h2
              · exact hqd a (List.mem_cons_of_mem _ h1)
              · rcases List.mem_cons.mp h2 with rfl | h3
                · exact hqd a (List.mem_cons_self _ _)
                · cases h3
            · intro g' hg' hg'd
              rcases List.mem_cons.mp (hq g' hg' hg'd) with heq | h
              · exact List.mem_append.mpr (Or.inr (heq ▸ List.mem_cons_self _ _))
              · exact List.mem_append.mpr (Or.inl h)
            · intro _
              refine ⟨m, pre', post ++ [n], ?_, hpres, hunused, ?_⟩
              · rw [hsplit.2]
                simp
              · have hlen1 : (tail ++ [n]).length = tail.length + 1 := by simp
                have hlen2 : (n :: tail).length = tail.length + 1 := rfl
                rw [hlen1]
                rw [hlen2] at hb
                simp only [List.length_cons] at hb
                omega
          · -- unused: erase it
            rw [show sweepLoop (fuel + 1) (n :: tail) fs =
                sweepLoop fuel tail (eraseFunc fs n) by
              simp [sweepLoop, hfind, hused]] at hg
            have hF0mem : F0 ∈ fs := List.mem_of_find?_eq_some hfind
            have hF0name : F0.name = n := by
              have := List.find?_some hfind
              simpa using this
            have hndead : n ∉ vis := hqd n (List.mem_cons_self _ _)
            have hdrop := deadCount_eraseFunc_lt vis hF0mem hF0name hndead
            have hclosed' : ∀ g' ∈ eraseFunc fs n, g'.name ∈ vis →
                ∀ c ∈ g'.callees, c ∈ vis :=
              fun g' hg' => hclosed g' (mem_eraseFunc.mp hg').1
            have hacyc' : ∀ a, ¬ Relation.TransGen (deadEdge (eraseFunc fs n) vis) a a := by
              intro a ha
              refine hacyc a (Relation.TransGen.mono ?_ ha)
              rintro x y ⟨hx, hy, f, hf, rfl, hcal⟩
              exact ⟨hx, hy, f, (mem_eraseFunc.mp hf).1, rfl, hcal⟩
            have hq' : ∀ g' ∈ eraseFunc fs n, g'.name ∉ vis → g'.name ∈ tail := by
              intro g' hg' hg'd
              obtain ⟨hg'fs, hg'ne⟩ := mem_eraseFunc.mp hg'
              rcases List.mem_cons.mp (hq g' hg'fs hg'd) with heq | h
              · exact absurd heq hg'ne
              · exact h
            refine ih tail (eraseFunc fs n)
              (fun a ha => hqd a (List.mem_cons_of_mem _ ha)) hq' hclosed' hacyc' ?_ g hg
            intro hd'
            obtain ⟨g1, hg1, hg1d, hg1u⟩ :=
              exists_erasable (eraseFunc fs n) vis hclosed' hacyc' (deadCount_pos hd')
            obtain ⟨pre1, post1, hsplit1⟩ := List.append_of_mem (hq' g1 hg1 hg1d)
            refine ⟨g1.name, pre1, post1, hsplit1, ⟨g1, hg1, rfl⟩, hg1u, ?_⟩
            -- arithmetic: the dead count dropped, which pays for a whole
            -- fresh round through the (shorter) queue
            have hlq : tail.length = pre1.length + post1.length + 1 := by
              rw [hsplit1]
              simp
              omega
            have hlen2 : (n :: tail).length = tail.length + 1 := rfl
            rw [hlen2] at hb
            have h1 : deadCount vis (eraseFunc fs n) * (tail.length + 1) +
                (tail.length + 1) ≤ deadCount vis fs * (tail.length + 1) := by
              have hmul : (deadCount vis (eraseFunc fs n) + 1) * (tail.length + 1) ≤
                  deadCount vis fs * (tail.length + 1) :=
                Nat.mul_le_mul_right _ hdrop
              calc deadCount vis (eraseFunc fs n) * (tail.length + 1) + (tail.length + 1)
                  = (deadCount vis (eraseFunc fs n) + 1) * (tail.length + 1) := by ring
                _ ≤ deadCount vis fs * (tail.length + 1) := hmul
            have h3 : deadCount vis fs * (tail.length + 1 + 1) =
                deadCount vis fs * (tail.length + 1) + deadCount vis fs :=
              Nat.mul_succ _ _
            rw [h3] at hb
            omega

/-! ### The first sweep pass -/

theorem sweepPass1_cons_vis {vis : Finset String} {n rest funcs} (h : n ∈ vis) :
    sweepPass1 vis (n :: rest) funcs = sweepPass1 vis rest funcs := by
  simp [sweepPass1, h]

theorem sweepPass1_cons_used {vis : Finset String} {n rest funcs} (h : n ∉ vis)
    (hu : usedIn funcs n = true) :
    sweepPass1 vis (n :: rest) funcs =
      ((sweepPass1 vis rest funcs).1, n :: (sweepPass1 vis rest funcs).2) := by
  simp [sweepPass1, h, hu]

theorem sweepPass1_cons_erase {vis : Finset String} {n rest funcs} (h : n ∉ vis)
    (hu : usedIn funcs n = false) :
    sweepPass1 vis (n :: rest) funcs = sweepPass1 vis rest (eraseFunc funcs n) := by
  simp [sweepPass1, h, hu]

theorem sweepPass1_subset (vis : Finset String) :
    ∀ names funcs, ∀ g ∈ (sweepPass1 vis names funcs).1, g ∈ funcs := by
  intro names
  induction names with
  | nil => intro funcs g hg; exact hg
  | cons n rest ih =>
    intro funcs g hg
    by_cases h1 : n ∈ vis
    · rw [sweepPass1_cons_vis h1] at hg
      exact ih funcs g hg
    · cases hu : usedIn funcs n with
      | true =>
        rw [sweepPass1_cons_used h1 hu] at hg
        exact ih funcs g hg
      | false =>
        rw [sweepPass1_cons_erase h1 hu] at hg
        exact (mem_eraseFunc.mp (ih _ g hg)).1

theorem sweepPass1_keeps_visited (vis : Finset String) :
    ∀ names funcs, ∀ g ∈ funcs, g.name ∈ vis → g ∈ (sweepPass1 vis names funcs).1 := by
  intro names
  induction names with
  | nil => intro funcs g hg _; exact hg
  | cons n rest ih =>
    intro funcs g hg hgv
    by_cases h1 : n ∈ vis
    · rw [sweepPass1_cons_vis h1]
      exact ih funcs g hg hgv
    · cases hu : usedIn funcs n with
      | true =>
        rw [sweepPass1_cons_used h1 hu]
        exact ih funcs g hg hgv
      | false =>
        rw [sweepPass1_cons_erase h1 hu]
        refine ih _ g (mem_eraseFunc.mpr ⟨hg, ?_⟩) hgv
        intro heq
        exact h1 (heq ▸ hgv)

theorem sweepPass1_wl_unvisited (vis : Finset String) :
    ∀ names funcs, ∀ n ∈ (sweepPass1 vis names funcs).2, n ∉ vis := by
  intro names
  induction names with
  | nil => intro funcs n hn; cases hn
  | cons m rest ih =>
    intro funcs n hn
    by_cases h1 : m ∈ vis
    · rw [sweepPass1_cons_vis h1] at hn
      exact ih funcs n hn
    · cases hu : usedIn funcs m with
      | true =>
        rw [sweepPass1_cons_used h1 hu] at hn
        rcases List.mem_cons.mp hn with rfl | hn'
        · exact h1
        · exact ih funcs n hn'
      | false =>
        rw [sweepPass1_cons_erase h1 hu] at hn
        exact ih _ n hn

theorem sweepPass1_dead_in_wl (vis : Finset String) :
    ∀ names funcs, ∀ g ∈ (sweepPass1 vis names funcs).1, g.name ∉ vis →
      g.name ∈ names → g.name ∈ (sweepPass1 vis names funcs).2 := by
  intro names
  induction names with
  | nil => intro funcs g _ _ hmem; cases hmem
  | cons n rest ih =>
    intro funcs g hg hgd hmem
    by_cases h1 : n ∈ vis
    · rw [sweepPass1_cons_vis h1] at hg ⊢
      rcases List.mem_cons.mp hmem with heq | h
      · exact absurd (heq ▸ h1) hgd
      · exact ih funcs g hg hgd h
    · cases hu : usedIn funcs n with
      | true =>
        rw [sweepPass1_cons_used h1 hu] at hg ⊢
        by_cases heq : g.name = n
        · exact heq ▸ List.mem_cons_self _ _
        · rcases List.mem_cons.mp hmem with h | h
          · exact absurd h heq
          · exact List.mem_cons_of_mem _ (ih funcs g hg hgd h)
      | false =>
        rw [sweepPass1_cons_erase h1 hu] at hg ⊢
        have hge : g ∈ eraseFunc funcs n := sweepPass1_subset vis rest _ g hg
        have hne : g.name ≠ n := (mem_eraseFunc.mp hge).2
        rcases List.mem_cons.mp hmem with h | h
        · exact absurd h hne
        · exact ih _ g hg hgd h

/-- With unique function names, `getFunction` returns the list member itself. -/
theorem find?_name_of_nodup :
    ∀ (fs : List Func), (fs.map Func.name).Nodup → ∀ g ∈ fs,
      fs.find? (fun f => decide (f.name = g.name)) = some g := by
  intro fs
  induction fs with
  | nil => intro _ g hg; cases hg
  | cons a l ih =>
    intro hnodup g hg
    rw [List.map_cons, List.nodup_cons] at hnodup
    rcases List.mem_cons.mp hg with rfl | hgl
    · rw [List.find?_cons_of_pos _ (by simp)]
    · have hne : a.name ≠ g.name := by
        intro heq
        exact hnodup.1 (heq ▸ List.mem_map.mpr ⟨g, hgl, rfl⟩)
      rw [List.find?_cons_of_neg _ (by simpa using hne)]
      exact ih hnodup.2 g hgl

theorem getFunction_of_nodup {M : Module} (hnodup : (M.funcs.map Func.name).Nodup)
    {g : Func} (hg : g ∈ M.funcs) : M.getFunction g.name = some g :=
  find?_name_of_nodup M.funcs hnodup g hg

/-! ### C2 (amended): pruning retains exactly the reachable closure -/

/-- A direct call edge between two functions that are both unreachable from
the entry. -/
def deadCallEdge (M : Module) (entry : String) (a b : String) : Prop :=
  ¬ MReach M entry a ∧ ¬ MReach M entry b ∧
    ∃ f ∈ M.funcs, f.name = a ∧ b ∈ f.callees

/-- No unreachable function transitively calls itself through unreachable
functions (no dead reference cycle). -/
def UnreachableCycleFree (M : Module) (entry : String) : Prop :=
  ∀ n, ¬ Relation.TransGen (deadCallEdge M entry) n n

/-- C2 (amended): for a module with unique function names and no reference
cycle among its unreachable functions, closure pruning retains exactly the
functions transitively reachable from the entry via direct call instructions
and deletes every other function. (Without the cycle-freedom hypothesis the
original claim fails: an unreachable self-referencing function is retried by
the deferral worklist forever and never deleted — see the counterexample.)
In particular, for the call graph `f → g → h` plus an unrelated `u`, pruning
for entry `f` retains exactly `{f, g, h}` and removes `u`. -/
theorem C2_closure_pruning_retains_reachable (M : Module) (entry : String)
    (hnodup : (M.funcs.map Func.name).Nodup)
    (hacyc : UnreachableCycleFree M entry) :
    ∀ g, g ∈ (PruneUnrelatedFunctionsAndVariables M entry).funcs ↔
      g ∈ M.funcs ∧ MReach M entry g.name := by
  obtain ⟨hchar, hclo⟩ := visitedSet_spec M entry
  set vis := visitedSet M entry with hvis
  -- closure of the visited set phrased on list members
  have hclosed : ∀ g ∈ M.funcs, g.name ∈ vis → ∀ c ∈ g.callees, c ∈ vis := by
    intro g hg hgv c hc
    exact hclo g.name hgv g (getFunction_of_nodup hnodup hg) c hc
  have hp1sub := sweepPass1_subset vis (M.funcs.map Func.name) M.funcs
  have hclosed1 : ∀ g ∈ (sweepPass1 vis (M.funcs.map Func.name) M.funcs).1,
      g.name ∈ vis → ∀ c ∈ g.callees, c ∈ vis :=
    fun g hg => hclosed g (hp1sub g hg)
  have hacyc1 : ∀ n, ¬ Relation.TransGen
      (deadEdge (sweepPass1 vis (M.funcs.map Func.name) M.funcs).1 vis) n n := by
    intro n hn
    refine hacyc n (Relation.TransGen.mono ?_ hn)
    rintro x y ⟨hx, hy, f, hf, rfl, hcal⟩
    exact ⟨fun h => hx ((hchar f.name).mpr h), fun h => hy ((hchar y).mpr h),
      f, hp1sub f hf, rfl, hcal⟩
  have hqd := sweepPass1_wl_unvisited vis (M.funcs.map Func.name) M.funcs
  have hq : ∀ g ∈ (sweepPass1 vis (M.funcs.map Func.name) M.funcs).1,
      g.name ∉ vis → g.name ∈ (sweepPass1 vis (M.funcs.map Func.name) M.funcs).2 := by
    intro g hg hgd
    exact sweepPass1_dead_in_wl vis _ M.funcs g hg hgd
      (List.mem_map.mpr ⟨g, hp1sub g hg, rfl⟩)
  intro g
  constructor
  · intro hg
    have hg1 : g ∈ (sweepPass1 vis (M.funcs.map Func.name) M.funcs).1 :=
      sweepLoop_subset _ _ _ g hg
    have hgM : g ∈ M.funcs := hp1sub g hg1
    refine ⟨hgM, (hchar g.name).mp ?_⟩
    -- sweep completeness: only visited functions can survive
    refine sweepLoop_complete vis _ _ _ hqd hq hclosed1 hacyc1 ?_ g hg
    intro hdpos
    obtain ⟨g1, hg1m, hg1d, hg1u⟩ :=
      exists_erasable _ vis hclosed1 hacyc1 (deadCount_pos hdpos)
    obtain ⟨pre1, post1, hsplit1⟩ := List.append_of_mem (hq g1 hg1m hg1d)
    refine ⟨g1.name, pre1, post1, hsplit1, ⟨g1, hg1m, rfl⟩, hg1u, ?_⟩
    -- the default fuel covers one full round per dead function
    unfold sweepFuel
    rw [← hvis]
    have hdle := deadCount_le_length vis (sweepPass1 vis (M.funcs.map Func.name) M.funcs).1
    have hlen : (sweepPass1 vis (M.funcs.map Func.name) M.funcs).2.length =
        pre1.length + post1.length + 1 := by
      rw [hsplit1]
      simp
      omega
    have hmul := Nat.mul_le_mul_right
      ((sweepPass1 vis (M.funcs.map Func.name) M.funcs).2.length + 1) hdle
    have hcomm : (sweepPass1 vis (M.funcs.map Func.name) M.funcs).1.length *
        ((sweepPass1 vis (M.funcs.map Func.name) M.funcs).2.length + 1) +
        ((sweepPass1 vis (M.funcs.map Func.name) M.funcs).2.length + 1) =
        ((sweepPass1 vis (M.funcs.map Func.name) M.funcs).2.length + 1) *
        ((sweepPass1 vis (M.funcs.map Func.name) M.funcs).1.length + 1) := by
      ring
    omega
  · rintro ⟨hgM, hreach⟩
    have hgv : g.name ∈ vis := (hchar g.name).mpr hreach
    exact sweepLoop_keeps_visited vis _ _ _
      (fun n hn => hqd n hn) g
      (sweepPass1_keeps_visited vis _ M.funcs g hgM hgv) hgv

/-- Witness for C2 on the concrete call graph `f → g → h` plus unrelated `u`:
the unrelated function is in the pruned module exactly if it is reachable
(it is not), and the pruned module retains exactly `{f, g, h}`. -/
theorem C2_closure_pruning_retains_reachable_witness :
    (((⟨"u", 1, [], [], true⟩ : Func) ∈
        (PruneUnrelatedFunctionsAndVariables Mfghu "f").funcs) ↔
      ((⟨"u", 1, [], [], true⟩ : Func) ∈ Mfghu.funcs ∧ MReach Mfghu "f" "u")) ∧
    (PruneUnrelatedFunctionsAndVariables Mfghu "f").funcs.map Func.name =
      ["f", "g", "h"] := by
  have hgf : Mfghu.getFunction "f" = some ⟨"f", 1, ["g"], [], true⟩ := by decide
  have hgg : Mfghu.getFunction "g" = some ⟨"g", 1, ["h"], [], true⟩ := by decide
  have hrf : MReach Mfghu "f" "f" := MReach.refl
  have hrg : MReach Mfghu "f" "g" := MReach.step MReach.refl hgf (by decide)
  have hrh : MReach Mfghu "f" "h" := MReach.step hrg hgg (by decide)
  have hempty : ∀ a b, ¬ deadCallEdge Mfghu "f" a b := by
    rintro a b ⟨ha, hb, f₀, hf₀, heq, hcal⟩
    have hf₀' : f₀ = ⟨"f", 1, ["g"], [], true⟩ ∨ f₀ = ⟨"g", 1, ["h"], [], true⟩ ∨
        f₀ = ⟨"h", 1, [], [], true⟩ ∨ f₀ = ⟨"u", 1, [], [], true⟩ := by
      simpa [Mfghu] using hf₀
    rcases hf₀' with rfl | rfl | rfl | rfl
    · exact ha (heq ▸ hrf)
    · exact ha (heq ▸ hrg)
    · simp at hcal
    · simp at hcal
  have hacyc : UnreachableCycleFree Mfghu "f" := by
    intro n hn
    cases hn with
    | single h => exact hempty _ _ h
    | tail _ h => exact hempty _ _ h
  constructor
  · exact C2_closure_pruning_retains_reachable Mfghu "f" (by decide) hacyc
      ⟨"u", 1, [], [], true⟩
  · decide

/-! ## Kernel synthesis at the module level and the map dispatcher

`CreateNVVMWrapperKernel` (nvvmwrapper.cpp lines 140-287) first prunes the
module for the scalar function's name, returns early if a kernel of that
name already exists, declares the three `llvm.nvvm.read.ptx.sreg.*`
intrinsics when missing, and appends the synthesized kernel function, whose
call instructions reference (in emission order) the three intrinsics and the
scalar function. `vector_map` (toy.cpp lines 915-947) clones the live module
and drives pruning, synthesis and the launch on the clone. -/

def intrinsicDecl (n : String) : Func := ⟨n, 0, [], [], false⟩

/-- Declare an intrinsic by name if the module does not already have it
(nvvmwrapper.cpp lines 157-179). -/
def addIntrinsicDecl (M : Module) (n : String) : Module :=
  match M.getFunction n with
  | some _ => M
  | none => { M with funcs := M.funcs ++ [intrinsicDecl n] }

/-- Module-level effect of `CreateNVVMWrapperKernel`: prune, early-return if
the kernel already exists, declare the sreg intrinsics, append the kernel
function (one pointer parameter per scalar parameter plus the output
pointer). Returns the transformed module and the kernel name. -/
def CreateNVVMWrapperKernelModule (M : Module) (F : Func) : Module × String :=
  let M1 := PruneUnrelatedFunctionsAndVariables M F.name
  let kernelname := F.name ++ "_kernel"
  if (M1.getFunction kernelname).isSome then (M1, kernelname)
  else
    let M2 := addIntrinsicDecl (addIntrinsicDecl (addIntrinsicDecl M1
      "llvm.nvvm.read.ptx.sreg.tid.x") "llvm.nvvm.read.ptx.sreg.ntid.x")
      "llvm.nvvm.read.ptx.sreg.ctaid.x"
    ({ M2 with funcs := M2.funcs ++
        [⟨kernelname, F.arity + 1,
          ["llvm.nvvm.read.ptx.sreg.tid.x", "llvm.nvvm.read.ptx.sreg.ntid.x",
           "llvm.nvvm.read.ptx.sreg.ctaid.x", F.name], [], true⟩] },
     kernelname)

/-- A host vector value: contiguous doubles plus a length field. -/
structure DVector where
  ptr : List ℚ
  length : ℕ
deriving DecidableEq

/-- Observable outcome of one `vector_map` call: the live module afterwards,
the synthesis module (the mutated clone), the result length written to
`res->length`, the number of elements copied host-to-device per input, the
copied input data, and whether a launch happened. -/
structure MapResult where
  liveModule : Module
  synthModule : Option Module
  resLength : Option ℕ
  copiedPerInput : List ℕ
  devInputs : List (List ℚ)
  launched : Bool
deriving DecidableEq

/-- `vector_map` (toy.cpp lines 915-947): clone the live module, look the
callee up in the clone (error return when absent), take each argument's
pointer, set the result length to the first argument's length, allocate the
host result buffer (error return on failure), synthesize the kernel on the
clone, and launch, copying `res->length` elements from each of the callee's
`arity` input pointers. The live module is never touched after the clone. -/
def vector_map (TheModule : Module) (name : String) (args : List DVector)
    (allocOk : Bool) : MapResult :=
  let M := TheModule
  match M.getFunction name with
  | none =>
    { liveModule := TheModule, synthModule := none, resLength := none,
      copiedPerInput := [], devInputs := [], launched := false }
  | some CalleeF =>
    let arity := CalleeF.arity
    let argsbuf := (args.take arity).map DVector.ptr
    let resLength := (args.headD ⟨[], 0⟩).length
    if allocOk = false then
      { liveModule := TheModule, synthModule := none, resLength := some resLength,
        copiedPerInput := [], devInputs := [], launched := false }
    else
      let p := CreateNVVMWrapperKernelModule M CalleeF
      { liveModule := TheModule, synthModule := some p.1,
        resLength := some resLength,
        copiedPerInput := List.replicate arity resLength,
        devInputs := argsbuf.map (fun q => q.take resLength),
        launched := true }

/-- C4: a map call operates only on a clone of the live module — on every
path (unknown callee, host-allocation failure, successful launch) the live
module is returned unchanged — while pruning and synthesis do mutate the
clone, as the concrete instance shows: mapping `f` over the `f → g → h, u`
module produces a synthesis module different from the live one (`u` pruned,
the kernel appended), and the live module is intact. -/
theorem C4_map_operates_on_clone :
    (∀ (M : Module) (name : String) (args : List DVector) (allocOk : Bool),
      (vector_map M name args allocOk).liveModule = M) ∧
    (vector_map Mfghu "f" [⟨[1, 2], 2⟩] true).synthModule ≠ some Mfghu ∧
    (vector_map Mfghu "f" [⟨[1, 2], 2⟩] true).liveModule = Mfghu := by
  refine ⟨?_, by decide, by decide⟩
  intro M name args allocOk
  cases hF : M.getFunction name with
  | none => simp [vector_map, hF]
  | some F =>
    by_cases h : allocOk = false <;> simp [vector_map, hF, h]

/-- C9: with at least one argument vector, the result length is the first
argument's length, exactly that many elements are copied to the device from
each of the callee's `arity` inputs, and the call's outcome is unchanged by
altering the lengths of the remaining argument vectors (they are never
consulted: only their pointers are). -/
theorem C9_result_length_from_first_arg (M : Module) (name : String)
    (args : List DVector) (F : Func) (hF : M.getFunction name = some F)
    (hne : args ≠ []) :
    (vector_map M name args true).resLength = some (args.headD ⟨[], 0⟩).length ∧
    (vector_map M name args true).copiedPerInput =
      List.replicate F.arity (args.headD ⟨[], 0⟩).length ∧
    ∀ args' : List DVector, args'.map DVector.ptr = args.map DVector.ptr →
      (args'.headD ⟨[], 0⟩).length = (args.headD ⟨[], 0⟩).length →
      vector_map M name args' true = vector_map M name args true := by
  refine ⟨by simp [vector_map, hF], by simp [vector_map, hF], ?_⟩
  intro args' hptr hhead
  have htake : ∀ k, (args'.take k).map DVector.ptr = (args.take k).map DVector.ptr := by
    intro k
    rw [List.map_take, List.map_take, hptr]
  simp only [vector_map, hF]
  rw [htake F.arity, hhead]

/-- Witness for C9: mapping arity-1 `f` over `[1,2,3]` (length 3) and a
second vector whose length field is 7 gives result length 3 and one
three-element device copy. -/
theorem C9_result_length_from_first_arg_witness :
    (vector_map Mfghu "f" [⟨[1, 2, 3], 3⟩, ⟨[9], 7⟩] true).resLength = some 3 ∧
    (vector_map Mfghu "f" [⟨[1, 2, 3], 3⟩, ⟨[9], 7⟩] true).copiedPerInput =
      List.replicate 1 3 := by
  have h := C9_result_length_from_first_arg Mfghu "f" [⟨[1, 2, 3], 3⟩, ⟨[9], 7⟩]
    ⟨"f", 1, ["g"], [], true⟩ (by decide) (by simp)
  exact ⟨h.1, h.2.1⟩

/-! ## The expression language and the run-time semantics of its generated IR

The scalar fragment of the AST of toy.cpp (`NumberExprAST`, `VariableExprAST`,
`UnaryExprAST`, `BinaryExprAST`, `CallExprAST`, `IfExprAST`, `ForExprAST`,
`VarExprAST` with scalar bindings). The interpreter below executes an
expression exactly as the IR emitted by the corresponding `Codegen` methods
executes: mutable variables live in numbered stack slots (`alloca`), the
symbol table maps names to slots with save/restore scoping, `=` stores
through the left-hand variable's slot, `<`/`>` produce `1.0`/`0.0`, `if`
branches on `≠ 0.0`, and `for` is the pre-test loop of toy.cpp lines
1005-1108: evaluate the end-condition expression, run the body while it is
non-zero, add the step (default `1.0`) to the loop variable, and yield `0.0`.

Numbers are modeled as exact rationals: every program considered here
computes small integers, on which IEEE double arithmetic is exact.

`fuel` bounds the number of evaluation steps; `.fuelOut` means the generated
code would still be running (an infinite loop never returns any other
result). The trace records, at each loop-body entry, the loop variable's
name and current value. -/

inductive Expr where
  | num (v : ℚ)
  | var (name : String)
  | unop (op : Char) (operand : Expr)
  | bin (op : Char) (lhs rhs : Expr)
  | call (callee : String) (args : List Expr)
  | ifE (cond thenE elseE : Expr)
  | forE (varName : String) (start stop : Expr) (step : Option Expr) (body : Expr)
  | varE (bindings : List (String × Option Expr)) (body : Expr)

structure FuncDef where
  name : String
  params : List String
  body : Expr

inductive EvalErr where
  | err
  | fuelOut
deriving DecidableEq

/-- `NamedValues` lookup: name → stack slot. -/
def envLookup (env : List (String × ℕ)) (x : String) : Option ℕ :=
  (env.find? (fun p => decide (p.1 = x))).map Prod.snd

/-- Load from a stack slot. -/
def load (mem : List ℚ) (slot : ℕ) : ℚ := mem.getD slot 0

/-- Store to a stack slot. -/
def store (mem : List ℚ) (slot : ℕ) (v : ℚ) : List ℚ := mem.set slot v

/-- `CreateArgumentAllocas`: one fresh slot per parameter holding the
argument value; the callee's symbol table holds exactly the parameters. -/
def bindParams (params : List String) (start : ℕ) : List (String × ℕ) :=
  (params.enumFrom start).foldl (fun env p => (p.2, p.1) :: env) []

mutual

def eval (funcs : List FuncDef) : ℕ → Expr → List (String × ℕ) → List ℚ →
    Except EvalErr (ℚ × List ℚ × List (String × ℚ))
  | 0, _, _, _ => .error .fuelOut
  | fuel + 1, e, env, mem =>
    match e with
    | .num v => .ok (v, mem, [])
    | .var x =>
      match envLookup env x with
      | none => .error .err
      | some slot => .ok (load mem slot, mem, [])
    | .unop op operand => do
      let (v, mem1, t1) ← eval funcs fuel operand env mem
      let (r, mem2, t2) ← evalCall funcs fuel ("unary".push op) [v] mem1
      .ok (r, mem2, t1 ++ t2)
    | .bin op l r =>
      if op = '=' then
        match l with
        | .var x => do
          let (v, mem1, t1) ← eval funcs fuel r env mem
          match envLookup env x with
          | none => .error .err
          | some slot => .ok (v, store mem1 slot v, t1)
        | _ => .error .err
      else do
        let (lv, mem1, t1) ← eval funcs fuel l env mem
        let (rv, mem2, t2) ← eval funcs fuel r env mem1
        if op = '+' then .ok (lv + rv, mem2, t1 ++ t2)
        else if op = '-' then .ok (lv - rv, mem2, t1 ++ t2)
        else if op = '*' then .ok (lv * rv, mem2, t1 ++ t2)
        else if op = '/' then .ok (lv / rv, mem2, t1 ++ t2)
        else if op = '<' then .ok (if lv < rv then 1 else 0, mem2, t1 ++ t2)
        else if op = '>' then .ok (if rv < lv then 1 else 0, mem2, t1 ++ t2)
        else do
          let (res, mem3, t3) ← evalCall funcs fuel ("binary".push op) [lv, rv] mem2
          .ok (res, mem3, t1 ++ t2 ++ t3)
    | .call callee args =>
      match funcs.find? (fun d => decide (d.name = callee)) with
      | none => .error .err
      | some D =>
        if D.params.length ≠ args.length then .error .err
        else do
          let (vs, mem1, t1) ← evalArgs funcs fuel args env mem
          let (rv, mem2, t2) ← evalCall funcs fuel callee vs mem1
          .ok (rv, mem2, t1 ++ t2)
    | .ifE c t e => do
      let (cv, mem1, t1) ← eval funcs fuel c env mem
      if cv ≠ 0 then do
        let (tv, mem2, t2) ← eval funcs fuel t env mem1
        .ok (tv, mem2, t1 ++ t2)
      else do
        let (ev, mem2, t2) ← eval funcs fuel e env mem1
        .ok (ev, mem2, t1 ++ t2)
    | .forE v s endE step body => do
      let (sv, mem1, t1) ← eval funcs fuel s env mem
      let slot := mem1.length
      let mem2 := mem1 ++ [sv]
      let (res, mem3, t3) ← evalFor funcs fuel v slot endE step body ((v, slot) :: env) mem2
      .ok (res, mem3, t1 ++ t3)
    | .varE bs body => do
      let (env1, mem1, t1) ← evalBinds funcs fuel bs env mem
      let (bv, mem2, t2) ← eval funcs fuel body env1 mem1
      .ok (bv, mem2, t1 ++ t2)
termination_by structural fuel => fuel

def evalArgs (funcs : List FuncDef) : ℕ → List Expr → List (String × ℕ) → List ℚ →
    Except EvalErr (List ℚ × List ℚ × List (String × ℚ))
  | 0, _, _, _ => .error .fuelOut
  | _ + 1, [], _, mem => .ok ([], mem, [])
  | fuel + 1, a :: as, env, mem => do
    let (v, mem1, t1) ← eval funcs fuel a env mem
    let (vs, mem2, t2) ← evalArgs funcs fuel as env mem1
    .ok (v :: vs, mem2, t1 ++ t2)
termination_by structural fuel => fuel

def evalCall (funcs : List FuncDef) : ℕ → String → List ℚ → List ℚ →
    Except EvalErr (ℚ × List ℚ × List (String × ℚ))
  | 0, _, _, _ => .error .fuelOut
  | fuel + 1, name, argv, mem =>
    match funcs.find? (fun d => decide (d.name = name)) with
    | none => .error .err
    | some D => eval funcs fuel D.body (bindParams D.params mem.length) (mem ++ argv)
termination_by structural fuel => fuel

def evalFor (funcs : List FuncDef) : ℕ → String → ℕ → Expr → Option Expr → Expr →
    List (String × ℕ) → List ℚ → Except EvalErr (ℚ × List ℚ × List (String × ℚ))
  | 0, _, _, _, _, _, _, _ => .error .fuelOut
  | fuel + 1, v, slot, endE, step, body, env, mem => do
    let (endv, mem1, t1) ← eval funcs fuel endE env mem
    if endv ≠ 0 then do
      let cur := load mem1 slot
      let (_, mem2, t2) ← eval funcs fuel body env mem1
      let (stepv, mem3, t3) ← match step with
        | some s => eval funcs fuel s env mem2
        | none => .ok (1, mem2, ([] : List (String × ℚ)))
      let mem4 := store mem3 slot (load mem3 slot + stepv)
      let (res, mem5, t5) ← evalFor funcs fuel v slot endE step body env mem4
      .ok (res, mem5, t1 ++ (v, cur) :: (t2 ++ t3 ++ t5))
    else
      .ok (0, mem1, t1)
termination_by structural fuel => fuel

def evalBinds (funcs : List FuncDef) : ℕ → List (String × Option Expr) →
    List (String × ℕ) → List ℚ →
    Except EvalErr (List (String × ℕ) × List ℚ × List (String × ℚ))
  | 0, _, _, _ => .error .fuelOut
  | _ + 1, [], env, mem => .ok (env, mem, [])
  | fuel + 1, (x, init) :: rest, env, mem => do
    let (v, mem1, t1) ← match init with
      | some e => eval funcs fuel e env mem
      | none => .ok (0, mem, ([] : List (String × ℚ)))
    let slot := mem1.length
    let mem2 := mem1 ++ [v]
    let (env2, mem3, t2) ← evalBinds funcs fuel rest ((x, slot) :: env) mem2
    .ok (env2, mem3, t1 ++ t2)
termination_by structural fuel => fuel

end

end CuKal

deriving instance DecidableEq for Except

namespace CuKal
@[simp] theorem ok_bind {ε α β : Type} (a : α) (f : α → Except ε β) :
    (Except.ok a >>= f) = f a := rfl

@[simp] theorem error_bind {ε α β : Type} (e : ε) (f : α → Except ε β) :
    ((Except.error e : Except ε α) >>= f) = Except.error e := rfl

@[simp] theorem char_lt_eq_eq : ('<' = '=') = False := by decide
@[simp] theorem char_lt_eq_add : ('<' = '+') = False := by decide
@[simp] theorem char_lt_eq_sub : ('<' = '-') = False := by decide
@[simp] theorem char_lt_eq_mul : ('<' = '*') = False := by decide
@[simp] theorem char_lt_eq_div : ('<' = '/') = False := by decide

/-- Helper: with the constant `5` as end-condition expression, the loop
condition is non-zero at every iteration, so the loop never exits: every
amount of fuel is exhausted. -/
theorem forLoop_const_end_diverges : ∀ fuel slot env mem,
    evalFor [] fuel "i" slot (.num 5) none (.num 1) env mem =
      .error .fuelOut := by
  intro fuel
  induction fuel with
  | zero => intro slot env mem; rfl
  | succ fuel ih =>
    intro slot env mem
    cases fuel with
    | zero => rfl
    | succ k =>
      have hstep : evalFor [] (k + 1 + 1) "i" slot (.num 5) none (.num 1) env mem =
          (evalFor [] (k + 1) "i" slot (.num 5) none (.num 1) env
            (store mem slot (load mem slot + 1)) >>= fun r =>
              .ok (r.1, r.2.1, ("i", load mem slot) :: r.2.2)) := rfl
      rw [hstep, ih]
      rfl

/-- For every amount of fuel, evaluating `for i = 0, 5 in body` (body `1`)
is still running: the end-condition expression is the constant `5`, which is
never zero. -/
theorem forE_const_end_diverges :
    ∀ fuel, eval [] fuel (.forE "i" (.num 0) (.num 5) none (.num 1)) [] [] =
      .error .fuelOut := by
  intro fuel
  cases fuel with
  | zero => rfl
  | succ k =>
    cases k with
    | zero => rfl
    | succ m =>
      have hstep : eval [] (m + 1 + 1) (.forE "i" (.num 0) (.num 5) none (.num 1)) [] [] =
          (evalFor [] (m + 1) "i" 0 (.num 5) none (.num 1) [("i", 0)] [0] >>= fun r =>
            .ok (r.1, r.2.1, r.2.2)) := rfl
      rw [hstep, forLoop_const_end_diverges]
      rfl

/-- C6 counterexample: under the generated code's semantics (toy.cpp lines
1005-1108 run the loop while the end-condition expression is non-zero),
`for i = 0, 5 in body` never terminates — its end condition is the constant
`5` — so it does not execute the body exactly 5 times and never evaluates to
`0.0`: no amount of fuel makes the evaluation return a value. -/
theorem C6_counterexample_constant_end_condition :
    ¬ ∃ fuel v mem tr,
      eval [] fuel (.forE "i" (.num 0) (.num 5) none (.num 1)) [] [] =
        .ok (v, mem, tr) := by
  rintro ⟨fuel, v, mem, tr, h⟩
  rw [forE_const_end_diverges] at h
  cases h

set_option maxHeartbeats 2000000 in
/-- C6 (amended): the loop runs while the end-condition expression is
non-zero, so `for i = 0, 5 in body` runs forever (second conjunct), while a
loop that compares the variable, `for i = 0, i < 5 in body`, executes the
body exactly 5 times, at loop-variable values 0, 1, 2, 3, 4 (the trace),
with the omitted step defaulting to 1.0, and the whole expression evaluates
to 0.0. -/
theorem C6_for_loop_semantics :
    (eval [] 9 (.forE "i" (.num 0) (.bin '<' (.var "i") (.num 5)) none (.num 1)) [] [] =
      .ok (0, [5], [("i", 0), ("i", 1), ("i", 2), ("i", 3), ("i", 4)])) ∧
    (∀ fuel, eval [] fuel (.forE "i" (.num 0) (.num 5) none (.num 1)) [] [] =
      .error .fuelOut) := by
  constructor
  · norm_num [eval, evalFor, envLookup, load, store]
  · exact forE_const_end_diverges

/-- C7: in a `var`/`in` construct each initializer is evaluated before its
own binding is added to the symbol table, while earlier bindings of the same
list are already visible: `var x = q in var x = x in x` evaluates to `q`
(the inner initializer reads the outer `x`), `var a = q, b = a in b`
evaluates to `q` (the later initializer sees the earlier binding), and in
particular `var x = 1 in var x = x in x` evaluates to `1.0`. -/
theorem C7_var_initializer_scoping :
    (∀ q : ℚ, eval [] 10 (.varE [("x", some (.num q))]
        (.varE [("x", some (.var "x"))] (.var "x"))) [] [] = .ok (q, [q, q], [])) ∧
    (∀ q : ℚ, eval [] 10 (.varE [("a", some (.num q)), ("b", some (.var "a"))]
        (.var "b")) [] [] = .ok (q, [q, q], [])) ∧
    (eval [] 10 (.varE [("x", some (.num 1))]
        (.varE [("x", some (.var "x"))] (.var "x"))) [] [] = .ok (1, [1, 1], [])) := by
  refine ⟨?_, ?_, ?_⟩
  · intro q
    norm_num [eval, evalBinds, envLookup, load, store]
  · intro q
    norm_num [eval, evalBinds, envLookup, load, store]
  · norm_num [eval, evalBinds, envLookup, load, store]

/-! ## Definition processing and the operator-precedence table

`PrototypeAST::Codegen` (toy.cpp lines 1180-1212) rejects a redefinition
when a function of that name with a body already exists, or when the arity
differs; otherwise it reuses or creates the declaration.
`FunctionAST::Codegen` (lines 1230-1267) runs the prototype step first; only
on its success does it install a declared binary operator's precedence, then
generate the body; on body failure it erases the function and retracts the
operator. `codegenOk` is the success predicate of the `Codegen` methods:
codegen fails exactly on an unknown variable, an unknown unary/binary
operator function, an unknown callee, an arity mismatch, or assignment to a
non-variable. -/

structure Proto where
  name : String
  args : List String
  isOperator : Bool
  precedence : ℕ

/-- `PrototypeAST::isBinaryOp`. -/
def Proto.isBinaryOp (p : Proto) : Bool := p.isOperator && p.args.length == 2

/-- `PrototypeAST::getOperatorName`: last character of the name. -/
def Proto.operatorName (p : Proto) : Char := p.name.back

mutual

def codegenOk (M : Module) : Expr → List String → Bool
  | .num _, _ => true
  | .var x, scope => scope.contains x
  | .unop op e, scope =>
    codegenOk M e scope && (M.getFunction ("unary".push op)).isSome
  | .bin op l r, scope =>
    if op = '=' then
      match l with
      | .var x => codegenOk M r scope && scope.contains x
      | _ => false
    else
      codegenOk M l scope && codegenOk M r scope &&
        (op = '+' || op = '-' || op = '*' || op = '/' || op = '<' || op = '>' ||
          (M.getFunction ("binary".push op)).isSome)
  | .call callee args, scope =>
    match M.getFunction callee with
    | none => false
    | some F => F.arity == args.length && codegenOkList M args scope
  | .ifE c t e, scope =>
    codegenOk M c scope && codegenOk M t scope && codegenOk M e scope
  | .forE v st endE step body, scope =>
    codegenOk M st scope && codegenOk M endE (v :: scope) &&
      codegenOk M body (v :: scope) &&
      (match step with
       | none => true
       | some stE => codegenOk M stE (v :: scope))
  | .varE bs body, scope => codegenOkBinds M bs body scope
termination_by e _ => sizeOf e

def codegenOkList (M : Module) : List Expr → List String → Bool
  | [], _ => true
  | a :: as, scope => codegenOk M a scope && codegenOkList M as scope
termination_by l _ => sizeOf l

def codegenOkBinds (M : Module) : List (String × Option Expr) → Expr → List String → Bool
  | [], body, scope => codegenOk M body scope
  | (x, init) :: rest, body, scope =>
    (match init with
     | none => true
     | some e => codegenOk M e scope) && codegenOkBinds M rest body (x :: scope)
termination_by bs body _ => sizeOf bs + sizeOf body

end

/-- The operator-precedence table installed in `main` (toy.cpp 1473-1479). -/
def BinopPrecedenceInit : List (Char × ℕ) :=
  [('=', 2), ('<', 10), ('>', 10), ('+', 20), ('-', 20), ('*', 40), ('/', 40)]

/-- `BinopPrecedence[c] = p` (std::map assignment). -/
def precInsert (t : List (Char × ℕ)) (c : Char) (p : ℕ) : List (Char × ℕ) :=
  (c, p) :: t.filter (fun q => decide (q.1 ≠ c))

/-- `BinopPrecedence.erase(c)`. -/
def precErase (t : List (Char × ℕ)) (c : Char) : List (Char × ℕ) :=
  t.filter (fun q => decide (q.1 ≠ c))

/-- `GetTokPrecedence` (toy.cpp 325-333): `-1` unless the character has a
registered precedence `> 0`. -/
def GetTokPrecedence (t : List (Char × ℕ)) (c : Char) : Int :=
  match (t.find? (fun q => decide (q.1 = c))).map Prod.snd with
  | none => -1
  | some p => if p ≤ 0 then -1 else (p : Int)

/-- A character can be used as a binary operator in expressions iff the
parser sees a positive precedence for it. -/
def opUsable (t : List (Char × ℕ)) (c : Char) : Bool :=
  decide (0 < GetTokPrecedence t c)

/-- `PrototypeAST::Codegen`: create the declaration, or reuse an existing
body-less declaration of the same arity; reject a redefinition of a function
that has a body or a different arity. -/
def protoCodegen (M : Module) (p : Proto) : Option Module :=
  match M.getFunction p.name with
  | none => some { M with funcs := M.funcs ++ [⟨p.name, p.args.length, [], [], false⟩] }
  | some F =>
    if F.hasBody then none
    else if F.arity ≠ p.args.length then none
    else some M

/-- Mark a function as having a body. -/
def setBody (M : Module) (n : String) : Module :=
  { M with funcs := M.funcs.map (fun f => if f.name = n then { f with hasBody := true } else f) }

/-- `FunctionAST::Codegen`: prototype step (failure leaves module and
precedence table untouched); on success install a binary operator's
precedence, then generate the body; on body failure erase the function and
retract the operator. Returns the new module, the new precedence table, and
whether codegen succeeded. -/
def functionCodegen (M : Module) (prec : List (Char × ℕ)) (p : Proto) (body : Expr) :
    Module × List (Char × ℕ) × Bool :=
  match protoCodegen M p with
  | none => (M, prec, false)
  | some M1 =>
    let prec1 := if p.isBinaryOp then precInsert prec p.operatorName p.precedence else prec
    if codegenOk M1 body p.args then
      (setBody M1 p.name, prec1, true)
    else
      (eraseFunc M1.funcs p.name |> fun fs => { M1 with funcs := fs },
       if p.isBinaryOp then precErase prec1 p.operatorName else prec1,
       false)

/-- `def binary~ 10 (a b) ...`. -/
def protoTilde : Proto := ⟨"binary~", ["a", "b"], true, 10⟩

/-- The empty initial module. -/
def M0 : Module := ⟨[], []⟩

/-- After `def binary~ 10 (a b) a` the session state is: `binary~` defined
with a body, and `~` registered at precedence 10. -/
theorem functionCodegen_tilde_ok :
    functionCodegen M0 BinopPrecedenceInit protoTilde (.var "a") =
      (⟨[⟨"binary~", 2, [], [], true⟩], []⟩, ('~', 10) :: BinopPrecedenceInit, true) := by
  simp [functionCodegen, protoCodegen, codegenOk, M0, protoTilde, Module.getFunction,
    setBody, precInsert, BinopPrecedenceInit, Proto.isBinaryOp, Proto.operatorName]
  decide

/-- A redefinition of `binary~` (here with a body that could not be
generated) is rejected by the prototype step — the existing `binary~` has a
body — and the module and the precedence table are left untouched. -/
theorem functionCodegen_tilde_redef :
    functionCodegen (⟨[⟨"binary~", 2, [], [], true⟩], []⟩ : Module)
        (('~', 10) :: BinopPrecedenceInit) protoTilde (.var "c") =
      (⟨[⟨"binary~", 2, [], [], true⟩], []⟩, ('~', 10) :: BinopPrecedenceInit, false) := by
  have hg : (⟨[⟨"binary~", 2, [], [], true⟩], []⟩ : Module).getFunction "binary~" =
      some ⟨"binary~", 2, [], [], true⟩ := by decide
  simp [functionCodegen, protoCodegen, protoTilde, hg]

/-- C8 counterexample: after a successful `def binary~ 10 (a b) a`, a later
redefinition whose body fails codegen (body `c`, an unknown variable) is
rejected before any body codegen — `PrototypeAST::Codegen` refuses to
redefine a function that already has a body, and `FunctionAST::Codegen`
returns before touching the precedence table — so codegen fails (flag
`false`) yet `~` is NOT retracted: it is still usable afterwards,
contradicting the claim. -/
theorem C8_counterexample_operator_not_retracted :
    (functionCodegen (functionCodegen M0 BinopPrecedenceInit protoTilde (.var "a")).1
      (functionCodegen M0 BinopPrecedenceInit protoTilde (.var "a")).2.1
      protoTilde (.var "c")).2.2 = false ∧
    opUsable (functionCodegen (functionCodegen M0 BinopPrecedenceInit protoTilde (.var "a")).1
      (functionCodegen M0 BinopPrecedenceInit protoTilde (.var "a")).2.1
      protoTilde (.var "c")).2.1 '~' = true := by
  rw [functionCodegen_tilde_ok]
  rw [show (((⟨[⟨"binary~", 2, [], [], true⟩], []⟩ : Module),
      ('~', 10) :: BinopPrecedenceInit, true)).1 = (⟨[⟨"binary~", 2, [], [], true⟩], []⟩ : Module) from rfl]
  rw [show (((⟨[⟨"binary~", 2, [], [], true⟩], []⟩ : Module),
      ('~', 10) :: BinopPrecedenceInit, true)).2.1 = ('~', 10) :: BinopPrecedenceInit from rfl]
  rw [functionCodegen_tilde_redef]
  exact ⟨rfl, by decide⟩

/-- C8 (amended): after a successful `def binary~ 10 (a b) ...` the operator
`~` is usable. A later redefinition is rejected at the prototype stage
(functions with bodies cannot be redefined) before the body is ever
generated; the module and precedence table are unchanged and `~` remains
usable with its original definition. The operator is retracted from the
precedence table — and the function removed from the module — only when body
codegen fails for a definition that passed the prototype stage, e.g. the
very first definition of `~` with a bad body, after which `~` is not
usable. -/
theorem C8_operator_lifecycle :
    ((functionCodegen M0 BinopPrecedenceInit protoTilde (.var "a")).2.2 = true ∧
      opUsable (functionCodegen M0 BinopPrecedenceInit protoTilde (.var "a")).2.1 '~' = true) ∧
    (functionCodegen (functionCodegen M0 BinopPrecedenceInit protoTilde (.var "a")).1
        (functionCodegen M0 BinopPrecedenceInit protoTilde (.var "a")).2.1
        protoTilde (.var "c") =
      ((functionCodegen M0 BinopPrecedenceInit protoTilde (.var "a")).1,
       (functionCodegen M0 BinopPrecedenceInit protoTilde (.var "a")).2.1, false)) ∧
    ((functionCodegen M0 BinopPrecedenceInit protoTilde (.var "c")).2.2 = false ∧
      opUsable (functionCodegen M0 BinopPrecedenceInit protoTilde (.var "c")).2.1 '~' = false ∧
      (functionCodegen M0 BinopPrecedenceInit protoTilde (.var "c")).1.getFunction
        "binary~" = none) := by
  have hfail : functionCodegen M0 BinopPrecedenceInit protoTilde (.var "c") =
      (⟨[], []⟩, BinopPrecedenceInit, false) := by
    simp [functionCodegen, protoCodegen, codegenOk, M0, protoTilde, Module.getFunction,
      eraseFunc, precInsert, precErase, BinopPrecedenceInit, Proto.isBinaryOp,
      Proto.operatorName]
    decide
  refine ⟨?_, ?_, ?_⟩
  · rw [functionCodegen_tilde_ok]
    exact ⟨rfl, by decide⟩
  · rw [functionCodegen_tilde_ok]
    exact functionCodegen_tilde_redef
  · rw [hfail]
    exact ⟨rfl, by decide, by decide⟩
end CuKal
